import Mathlib

/-!
Verification of the two-pass size-limiting eviction tool (src/main.rs).

The program walks a directory tree twice.  Pass 1 sums the sizes of all
regular files and symlinks strictly beneath the root (walkdir with
min_depth(1)).  If the total is at most the goal it reports "nothing to do"
and exits.  Otherwise pass 2 walks again with walkdir's sort_by_key on
st_mtime (which sorts the entries of each directory, the traversal staying
depth first), skips directories, subtracts each other entry's size from the
running total (u64 arithmetic), deletes the file unless --dry-run, invokes
remove_empty_ancestors unless --keep-parents, and stops once the running
total is at most the goal.  Every fallible OS call is wrapped in unwrap_io /
unwrap_io_lazy, which aborts the process with an operation + path message.

The embedding below models the filesystem as a finite tree.  Each node
carries the metadata the program reads (file kind, st_size, st_mtime) plus
one Option String per fallible OS call on that node (lstat failing, unlink
failing, reading the directory failing); `none` means the call succeeds.
Machine integers are Nat with explicit reduction mod 2^64 where the source
does u64 arithmetic.  The snapshot model of the two walks is sound because
pass 2 only ever deletes entries that the iterator has already yielded and
only ever prunes directories whose entry lists the iterator has already
materialized, so the deletions cannot change what the walk yields.
-/

namespace Saurluhi

/-- File kinds as distinguished by std::fs::FileType. -/
inductive FileKind where
  | regular
  | symlink
  | directory
  | other
deriving DecidableEq, Repr

/-- Kinds a non-directory node can have (`other` covers fifos, sockets,
device nodes − everything that is neither file, symlink nor directory). -/
inductive LeafKind where
  | regular
  | symlink
  | other
deriving DecidableEq, Repr

def LeafKind.kind : LeafKind → FileKind
  | .regular => .regular
  | .symlink => .symlink
  | .other => .other

/-- `counted_file_type` from the source: `ty.is_file() || ty.is_symlink()`. -/
def counted_file_type (ty : FileKind) : Bool :=
  ty == .regular || ty == .symlink

/-- Paths as component lists, mirroring std::path::Path component-wise
operations (starts_with, ancestors, parent). -/
abbrev EPath := List String

mutual
/-- A filesystem node as the program observes it.  `file` is any
non-directory object: its LeafKind, st_size, st_mtime, and two fault
injection points (`metaErr`: lstat on it fails, `delErr`: remove_file on it
fails).  `dir` carries st_mtime (the sort key walkdir would use for it), a
`metaErr` for lstat, a `readErr` for read_dir failing, and the children.
Directory st_size is not modelled because the source never reads it. -/
inductive FsNode where
  | file (k : LeafKind) (sz : Nat) (mtime : Int)
      (metaErr : Option String) (delErr : Option String) : FsNode
  | dir (mtime : Int) (metaErr : Option String) (readErr : Option String)
      (children : FsChildren) : FsNode

/-- The named children of a directory, in the order the OS yields them. -/
inductive FsChildren where
  | nil : FsChildren
  | cons (name : String) (node : FsNode) (rest : FsChildren) : FsChildren
end

/-- st_mtime of a node, the walkdir sort key of pass 2. -/
def mtimeOf : FsNode → Int
  | .file _ _ mt _ _ => mt
  | .dir mt _ _ _ => mt

/-- The lstat fault marker of a node. -/
def metaErrOf : FsNode → Option String
  | .file _ _ _ me _ => me
  | .dir _ me _ _ => me

/-- A directory entry as yielded by the tree walker: path, file kind,
st_size and st_mtime. -/
structure Entry where
  path : EPath
  kind : FileKind
  sz : Nat
  mtime : Int
deriving DecidableEq, Repr

/-- The diagnostic carried by a fatal abort: the operation attempted and the
path passed to unwrap_io / unwrap_io_lazy. -/
structure Diag where
  op : String
  path : EPath
deriving DecidableEq, Repr

/-- 2^64, the modulus of the u64 arithmetic in the source. -/
def U64 : Nat := 2 ^ 64

/-- u64 wrapping subtraction: the semantics of `size -= ...` on u64 values
(the build has no overflow checks, so the subtraction wraps). -/
def wsub (a b : Nat) : Nat := (a % U64 + (U64 - b % U64)) % U64

mutual
/-- No fault marker anywhere in the node: every OS call on the subtree
succeeds. -/
def errFreeN : FsNode → Bool
  | .file _ _ _ me de => me.isNone && de.isNone
  | .dir _ me re cs => me.isNone && re.isNone && errFreeC cs

def errFreeC : FsChildren → Bool
  | .nil => true
  | .cons _ n rest => errFreeN n && errFreeC rest
end

mutual
/-- Every non-directory node of the subtree has a counted file type
(regular file or symlink): the tree holds no fifos, sockets or devices. -/
def allCountedN : FsNode → Bool
  | .file k _ _ _ _ => counted_file_type k.kind
  | .dir _ _ _ cs => allCountedC cs

def allCountedC : FsChildren → Bool
  | .nil => true
  | .cons _ n rest => allCountedN n && allCountedC rest
end

mutual
/-- The same node with every fault marker erased. -/
def eraseN : FsNode → FsNode
  | .file k sz mt _ _ => .file k sz mt none none
  | .dir mt _ _ cs => .dir mt none none (eraseC cs)

def eraseC : FsChildren → FsChildren
  | .nil => .nil
  | .cons nm n rest => .cons nm (eraseN n) (eraseC rest)
end

mutual
/-- Aggregate counted size of the subtree: the sum of st_size over the
nodes whose file type satisfies counted_file_type. -/
def countedN : FsNode → Nat
  | .file k sz _ _ _ => if counted_file_type k.kind then sz else 0
  | .dir _ _ _ cs => countedC cs

def countedC : FsChildren → Nat
  | .nil => 0
  | .cons _ n rest => countedN n + countedC rest
end

mutual
/-- The entries the tree walker yields for a node rooted at path `p`
(the node's own entry first, then its descendants, depth first, children
in list order). -/
def walkNode (p : EPath) : FsNode → List Entry
  | .file k sz mt _ _ => [⟨p, k.kind, sz, mt⟩]
  | .dir mt _ _ cs => ⟨p, .directory, 0, mt⟩ :: walkChildren p cs

def walkChildren (p : EPath) : FsChildren → List Entry
  | .nil => []
  | .cons nm n rest => walkNode (p ++ [nm]) n ++ walkChildren p rest
end

/-- The unordered walk of pass 1: every filesystem object strictly beneath
the root (min_depth(1): the root itself is excluded; WalkDir on a
non-directory yields only the root itself, hence nothing at depth 1). -/
def walk (root : EPath) : FsNode → List Entry
  | .file _ _ _ _ _ => []
  | .dir _ _ _ cs => walkChildren root cs

/-- Sum of sizes of the counted entries of a walk fragment. -/
def countedOf (l : List Entry) : Nat :=
  ((l.filter fun e => counted_file_type e.kind).map fun e => e.sz).sum

/-- Aggregate counted size of the tree strictly beneath the root: the sum,
over every walked entry whose file type satisfies counted_file_type, of its
st_size. -/
def totalCounted (root : EPath) (t : FsNode) : Nat :=
  countedOf (walk root t)

/-- Aggregate counted size of what remains of the tree after the files at
the given paths have been unlinked. -/
def remainingCountedSize (root : EPath) (t : FsNode) (deletedPaths : List EPath) : Nat :=
  (((walk root t).filter fun e =>
      counted_file_type e.kind && !(deletedPaths.contains e.path)).map fun e => e.sz).sum

mutual
/-- Pass 1 over one node at path `p`: the iterator chain
`map(unwrap_io "walking" directory) → filter(counted_file_type) →
map(metadata().unwrap_io_lazy("getting metadata of", path).size()) → sum`.
Reading a directory fails with op "walking" and the root path (the source
passes `&directory` there); lstat on a counted entry fails with
"getting metadata of" and the entry path.  Non-counted entries are filtered
out before their metadata is read. -/
def sizeNode (root p : EPath) : FsNode → Except Diag Nat
  | .file k sz _ me _ =>
    if counted_file_type k.kind then
      match me with
      | some _ => .error ⟨"getting metadata of", p⟩
      | none => .ok sz
    else .ok 0
  | .dir _ _ re cs =>
    match re with
    | some _ => .error ⟨"walking", root⟩
    | none => sizeChildren root p cs

def sizeChildren (root p : EPath) : FsChildren → Except Diag Nat
  | .nil => .ok 0
  | .cons nm n rest =>
    match sizeNode root (p ++ [nm]) n with
    | .error d => .error d
    | .ok a =>
      match sizeChildren root p rest with
      | .error d => .error d
      | .ok b => .ok (a + b)
end

/-- Pass 1 of main: the unordered walk with min_depth(1) summed as u64. -/
def pass1 (root : EPath) (t : FsNode) : Except Diag Nat :=
  match t with
  | .file _ _ _ _ _ => .ok 0
  | .dir _ _ re cs =>
    match re with
    | some _ => .error ⟨"walking", root⟩
    | none => sizeChildren root root cs

/-- Stable insertion by ascending st_mtime, the per-directory sort that
walkdir's sort_by_key performs (walkdir sorts the entries of each directory
by the key; the sort is stable). -/
def insertC (nm : String) (n : FsNode) : FsChildren → FsChildren
  | .nil => .cons nm n .nil
  | .cons nm2 n2 rest =>
    if mtimeOf n ≤ mtimeOf n2 then .cons nm n (.cons nm2 n2 rest)
    else .cons nm2 n2 (insertC nm n rest)

/-- Sort one directory's children by ascending st_mtime (stable). -/
def sortC : FsChildren → FsChildren
  | .nil => .nil
  | .cons nm n rest => insertC nm n (sortC rest)

mutual
/-- The tree with every directory's children sorted by ascending st_mtime:
the order in which walkdir's sorted iterator traverses the snapshot.
walkdir sorts lazily, one directory at a time as it descends, but the keys
it compares are the snapshot mtimes, so sorting the whole snapshot up front
yields the identical traversal. -/
def sortTree : FsNode → FsNode
  | .file k sz mt me de => .file k sz mt me de
  | .dir mt me re cs => .dir mt me re (sortC (sortTreeChildren cs))

def sortTreeChildren : FsChildren → FsChildren
  | .nil => .nil
  | .cons nm n rest => .cons nm (sortTree n) (sortTreeChildren rest)
end

/-- walkdir computes the sort key (metadata().mtime()) of every entry of a
directory when it opens that directory; if lstat fails on any entry the key
closure aborts with "getting metadata on" and that entry's path.  This scans
the children for the first lstat fault. -/
def findMetaErrC (p : EPath) : FsChildren → Option Diag
  | .nil => none
  | .cons nm n rest =>
    match metaErrOf n with
    | some _ => some ⟨"getting metadata on", p ++ [nm]⟩
    | none => findMetaErrC p rest

/-- The observable outcome of the eviction loop (pass 2) over a fragment of
the walk: the paths yielded, the per-file report lines
"(would) delete(ing) path, size is now N", the entries actually unlinked,
the paths remove_empty_ancestors was invoked on, whether the
"size is now under limit" stop fired, whether any u64 subtraction
underflowed, the final running total, and the fatal abort if one occurred.
-/
structure P2Out where
  visited : List EPath
  trace : List (EPath × Nat)
  deleted : List Entry
  pruneCalls : List EPath
  underLimit : Bool
  wrapped : Bool
  finalSize : Nat
  fatal : Option Diag
deriving DecidableEq, Repr

/-- The loop stops iterating: the under-limit break fired or the process
aborted. -/
def P2Out.stops (o : P2Out) : Bool := o.underLimit || o.fatal.isSome

/-- Sequencing of two loop fragments when the first did not stop. -/
def seqOut (o1 o2 : P2Out) : P2Out :=
  ⟨o1.visited ++ o2.visited, o1.trace ++ o2.trace, o1.deleted ++ o2.deleted,
   o1.pruneCalls ++ o2.pruneCalls, o2.underLimit, o1.wrapped || o2.wrapped,
   o2.finalSize, o2.fatal⟩

mutual
/-- The body of the eviction loop on the entry at path `p` (a node of the
already-sorted tree), followed depth first by the node's contents.  Mirrors
the for loop of main: the in-loop lstat ("getting metadata on", lazy path);
directories are only skipped, after which the iterator opens them (read
failure aborts with "reading" and the root path, the key lstats abort with
"getting metadata on"); for any non-directory the size is subtracted from
the running total as u64, the action and new total are reported, then
unless --dry-run the file is unlinked ("deleting" on failure) and unless
--keep-parents remove_empty_ancestors is invoked on its path; finally the
loop breaks once the total is at most the goal.  Directories reach neither
the subtraction nor the break check (the `continue`). -/
def evictNode (dryRun keepParents : Bool) (goal : Nat) (root p : EPath)
    (n : FsNode) (size : Nat) : P2Out :=
  match n with
  | .dir _ me re cs =>
    match me with
    | some _ => ⟨[p], [], [], [], false, false, size, some ⟨"getting metadata on", p⟩⟩
    | none =>
      match re with
      | some _ => ⟨[p], [], [], [], false, false, size, some ⟨"reading", root⟩⟩
      | none =>
        match findMetaErrC p cs with
        | some d => ⟨[p], [], [], [], false, false, size, some d⟩
        | none =>
          let out := evictChildren dryRun keepParents goal root p cs size
          ⟨p :: out.visited, out.trace, out.deleted, out.pruneCalls,
           out.underLimit, out.wrapped, out.finalSize, out.fatal⟩
  | .file k sz mt me de =>
    match me with
    | some _ => ⟨[p], [], [], [], false, false, size, some ⟨"getting metadata on", p⟩⟩
    | none =>
      let size2 := wsub size sz
      let wrapHere := decide (size % U64 < sz % U64)
      let ent : Entry := ⟨p, k.kind, sz, mt⟩
      if dryRun then
        if size2 ≤ goal then ⟨[p], [(p, size2)], [], [], true, wrapHere, size2, none⟩
        else ⟨[p], [(p, size2)], [], [], false, wrapHere, size2, none⟩
      else
        match de with
        | some _ => ⟨[p], [(p, size2)], [], [], false, wrapHere, size2, some ⟨"deleting", p⟩⟩
        | none =>
          let pc : List EPath := if keepParents then [] else [p]
          if size2 ≤ goal then ⟨[p], [(p, size2)], [ent], pc, true, wrapHere, size2, none⟩
          else ⟨[p], [(p, size2)], [ent], pc, false, wrapHere, size2, none⟩

/-- The eviction loop over the (sorted) children of the directory at path
`p`: entries in order, stopping as soon as a fragment stops. -/
def evictChildren (dryRun keepParents : Bool) (goal : Nat) (root p : EPath)
    (cs : FsChildren) (size : Nat) : P2Out :=
  match cs with
  | .nil => ⟨[], [], [], [], false, false, size, none⟩
  | .cons nm n rest =>
    let o1 := evictNode dryRun keepParents goal root (p ++ [nm]) n size
    if o1.stops then o1
    else seqOut o1 (evictChildren dryRun keepParents goal root p rest o1.finalSize)
end

/-- The observable outcome of one whole run of main: the reported initial
size if pass 1 completed, whether "no need to delete anything" was reported,
then the pass-2 observations, and the fatal abort if one occurred. -/
structure RunOut where
  initialSize : Option Nat
  nothingToDo : Bool
  visited : List EPath
  trace : List (EPath × Nat)
  deleted : List Entry
  pruneCalls : List EPath
  underLimit : Bool
  wrapped : Bool
  finalSize : Nat
  fatal : Option Diag
deriving DecidableEq, Repr

/-- main: pass 1 sums the sizes as u64 and reports the total; if it is at
most the goal the run stops there ("no need to delete anything, exiting");
otherwise pass 2 starts a fresh walk of the same directory, sorted per
directory by st_mtime (reading the root aborts with "reading" + the root
path, a failing key lstat among the root's children aborts with
"getting metadata on"), and runs the eviction loop. -/
def runMain (dryRun keepParents : Bool) (goal : Nat) (root : EPath)
    (t : FsNode) : RunOut :=
  match pass1 root t with
  | .error d => ⟨none, false, [], [], [], [], false, false, 0, some d⟩
  | .ok s0 =>
    let size := s0 % U64
    if size ≤ goal then
      ⟨some size, true, [], [], [], [], false, false, size, none⟩
    else
      match t with
      | .file _ _ _ _ _ => ⟨some size, false, [], [], [], [], false, false, size, none⟩
      | .dir _ _ re cs =>
        match re with
        | some _ =>
          ⟨some size, false, [], [], [], [], false, false, size, some ⟨"reading", root⟩⟩
        | none =>
          let cs2 := sortC (sortTreeChildren cs)
          match findMetaErrC root cs2 with
          | some d => ⟨some size, false, [], [], [], [], false, false, size, some d⟩
          | none =>
            let out := evictChildren dryRun keepParents goal root root cs2 size
            ⟨some size, false, out.visited, out.trace, out.deleted, out.pruneCalls,
             out.underLimit, out.wrapped, out.finalSize, out.fatal⟩

/-- Path::ancestors(): the path itself, then each parent in turn, ending
with the empty path.  For components [a, b] this is [[a, b], [a], []],
matching Rust's "a/b", "a", "". -/
def pathAncestors (p : EPath) : List EPath :=
  ((List.range (p.length + 1)).reverse).map fun k => p.take k

/-- One iteration chain of remove_empty_ancestors: for each candidate
ancestor, first the boundary test (`!ancestor.starts_with(within)` breaks),
then the remove_dir attempt, whose failure for any reason breaks; `ok` is
the external remove_dir primitive (true = the directory was removed, which
on the real filesystem means it existed, was empty and was writable).
Returns the attempts made, in order, each with its outcome. -/
def pruneLoop (ok : EPath → Bool) (within : EPath) : List EPath → List (EPath × Bool)
  | [] => []
  | a :: rest =>
    if within.isPrefixOf a then
      if ok a then (a, true) :: pruneLoop ok within rest
      else [(a, false)]
    else []

/-- remove_empty_ancestors(path, within): walk `path.ancestors().skip(1)`
(the immediate parent first, then upward) under the boundary test and the
fallible remove_dir primitive. -/
def removeEmptyAncestors (ok : EPath → Bool) (path within : EPath) : List (EPath × Bool) :=
  pruneLoop ok within ((pathAncestors path).drop 1)

/-- Children list from a plain list, for writing concrete trees. -/
def clOf : List (String × FsNode) → FsChildren
  | [] => .nil
  | (nm, n) :: rest => .cons nm n (clOf rest)

/-- A regular file with no fault markers. -/
def regF (sz : Nat) (mt : Int) : FsNode := .file .regular sz mt none none

/-- A fifo/socket/device node (kind `other`) with no fault markers. -/
def otherF (sz : Nat) (mt : Int) : FsNode := .file .other sz mt none none

/-- A directory with no fault markers. -/
def dirF (mt : Int) (cs : FsChildren) : FsNode := .dir mt none none cs

end Saurluhi

namespace Saurluhi

/-! ### Basic facts about fault markers, sorting and the walk -/

theorem metaErrOf_of_errFree {n : FsNode} (h : errFreeN n = true) : metaErrOf n = none := by
  cases n <;>
    simp_all [errFreeN, metaErrOf, Bool.and_eq_true, Option.isNone_iff_eq_none]

theorem errFreeC_insertC (nm : String) (n : FsNode) (cs : FsChildren) :
    errFreeC (insertC nm n cs) = (errFreeN n && errFreeC cs) := by
  match cs with
  | .nil => simp [insertC, errFreeC]
  | .cons nm2 n2 rest =>
    by_cases h : mtimeOf n ≤ mtimeOf n2
    · simp [insertC, h, errFreeC]
    · simp [insertC, h, errFreeC, errFreeC_insertC nm n rest, Bool.and_left_comm,
        Bool.and_assoc]

theorem errFreeC_sortC (cs : FsChildren) : errFreeC (sortC cs) = errFreeC cs := by
  match cs with
  | .nil => rfl
  | .cons nm n rest =>
    simp [sortC, errFreeC, errFreeC_insertC, errFreeC_sortC rest]

mutual
theorem errFreeN_sortTree (n : FsNode) : errFreeN (sortTree n) = errFreeN n := by
  match n with
  | .file k sz mt me de => rfl
  | .dir mt me re cs =>
    simp [sortTree, errFreeN, errFreeC_sortC, errFreeC_sortTreeChildren cs]

theorem errFreeC_sortTreeChildren (cs : FsChildren) :
    errFreeC (sortTreeChildren cs) = errFreeC cs := by
  match cs with
  | .nil => rfl
  | .cons nm n rest =>
    simp [sortTreeChildren, errFreeC, errFreeN_sortTree n, errFreeC_sortTreeChildren rest]
end

theorem allCountedC_insertC (nm : String) (n : FsNode) (cs : FsChildren) :
    allCountedC (insertC nm n cs) = (allCountedN n && allCountedC cs) := by
  match cs with
  | .nil => simp [insertC, allCountedC]
  | .cons nm2 n2 rest =>
    by_cases h : mtimeOf n ≤ mtimeOf n2
    · simp [insertC, h, allCountedC]
    · simp [insertC, h, allCountedC, allCountedC_insertC nm n rest, Bool.and_left_comm,
        Bool.and_assoc]

theorem allCountedC_sortC (cs : FsChildren) : allCountedC (sortC cs) = allCountedC cs := by
  match cs with
  | .nil => rfl
  | .cons nm n rest =>
    simp [sortC, allCountedC, allCountedC_insertC, allCountedC_sortC rest]

mutual
theorem allCountedN_sortTree (n : FsNode) : allCountedN (sortTree n) = allCountedN n := by
  match n with
  | .file k sz mt me de => rfl
  | .dir mt me re cs =>
    simp [sortTree, allCountedN, allCountedC_sortC, allCountedC_sortTreeChildren cs]

theorem allCountedC_sortTreeChildren (cs : FsChildren) :
    allCountedC (sortTreeChildren cs) = allCountedC cs := by
  match cs with
  | .nil => rfl
  | .cons nm n rest =>
    simp [sortTreeChildren, allCountedC, allCountedN_sortTree n,
      allCountedC_sortTreeChildren rest]
end

theorem countedC_insertC (nm : String) (n : FsNode) (cs : FsChildren) :
    countedC (insertC nm n cs) = countedN n + countedC cs := by
  match cs with
  | .nil => simp [insertC, countedC]
  | .cons nm2 n2 rest =>
    by_cases h : mtimeOf n ≤ mtimeOf n2
    · simp [insertC, h, countedC]
    · simp [insertC, h, countedC, countedC_insertC nm n rest]
      omega

theorem countedC_sortC (cs : FsChildren) : countedC (sortC cs) = countedC cs := by
  match cs with
  | .nil => rfl
  | .cons nm n rest =>
    simp [sortC, countedC, countedC_insertC, countedC_sortC rest]

mutual
theorem countedN_sortTree (n : FsNode) : countedN (sortTree n) = countedN n := by
  match n with
  | .file k sz mt me de => rfl
  | .dir mt me re cs =>
    simp [sortTree, countedN, countedC_sortC, countedC_sortTreeChildren cs]

theorem countedC_sortTreeChildren (cs : FsChildren) :
    countedC (sortTreeChildren cs) = countedC cs := by
  match cs with
  | .nil => rfl
  | .cons nm n rest =>
    simp [sortTreeChildren, countedC, countedN_sortTree n, countedC_sortTreeChildren rest]
end

theorem findMetaErrC_of_errFree (p : EPath) (cs : FsChildren)
    (h : errFreeC cs = true) : findMetaErrC p cs = none := by
  match cs with
  | .nil => rfl
  | .cons nm n rest =>
    simp only [errFreeC, Bool.and_eq_true] at h
    simp [findMetaErrC, metaErrOf_of_errFree h.1, findMetaErrC_of_errFree p rest h.2]

theorem countedOf_append (a b : List Entry) :
    countedOf (a ++ b) = countedOf a + countedOf b := by
  simp [countedOf, List.filter_append]

theorem countedOf_cons_uncounted (e : Entry) (l : List Entry)
    (h : counted_file_type e.kind = false) : countedOf (e :: l) = countedOf l := by
  simp [countedOf, List.filter_cons, h]

mutual
theorem countedOf_walkNode (p : EPath) (n : FsNode) :
    countedOf (walkNode p n) = countedN n := by
  match n with
  | .file k sz mt me de =>
    cases h : counted_file_type k.kind <;>
      simp [walkNode, countedOf, countedN, h]
  | .dir mt me re cs =>
    have h1 : countedOf ((⟨p, .directory, 0, mt⟩ : Entry) :: walkChildren p cs)
        = countedOf (walkChildren p cs) :=
      countedOf_cons_uncounted _ _ rfl
    simp [walkNode, countedN, h1, countedOf_walkChildren p cs]

theorem countedOf_walkChildren (p : EPath) (cs : FsChildren) :
    countedOf (walkChildren p cs) = countedC cs := by
  match cs with
  | .nil => rfl
  | .cons nm n rest =>
    simp [walkChildren, countedC, countedOf_append, countedOf_walkNode (p ++ [nm]) n,
      countedOf_walkChildren p rest]
end

/-! ### Pass 1 computes the aggregate counted size -/

mutual
theorem sizeNode_of_errFree (root p : EPath) (n : FsNode) (h : errFreeN n = true) :
    sizeNode root p n = Except.ok (countedN n) := by
  match n with
  | .file k sz mt me de =>
    simp only [errFreeN, Bool.and_eq_true, Option.isNone_iff_eq_none] at h
    cases hc : counted_file_type k.kind <;>
      simp [sizeNode, countedN, hc, h.1]
  | .dir mt me re cs =>
    simp only [errFreeN, Bool.and_eq_true, Option.isNone_iff_eq_none] at h
    obtain ⟨⟨h1, h2⟩, h3⟩ := h
    simp [sizeNode, countedN, h2, sizeChildren_of_errFree root p cs h3]

theorem sizeChildren_of_errFree (root p : EPath) (cs : FsChildren)
    (h : errFreeC cs = true) : sizeChildren root p cs = Except.ok (countedC cs) := by
  match cs with
  | .nil => rfl
  | .cons nm n rest =>
    simp only [errFreeC, Bool.and_eq_true] at h
    simp [sizeChildren, countedC, sizeNode_of_errFree root (p ++ [nm]) n h.1,
      sizeChildren_of_errFree root p rest h.2]
end

theorem sizeChildren_countedOf (root p : EPath) (cs : FsChildren)
    (h : errFreeC cs = true) :
    sizeChildren root p cs = Except.ok (countedOf (walkChildren p cs)) := by
  rw [sizeChildren_of_errFree root p cs h, countedOf_walkChildren]

theorem pass1_of_errFree (root : EPath) (t : FsNode) (h : errFreeN t = true) :
    pass1 root t = Except.ok (totalCounted root t) := by
  match t with
  | .file k sz mt me de => simp [pass1, totalCounted, walk, countedOf]
  | .dir mt me re cs =>
    simp only [errFreeN, Bool.and_eq_true, Option.isNone_iff_eq_none] at h
    obtain ⟨⟨h1, h2⟩, h3⟩ := h
    simp [pass1, h2, totalCounted, walk, countedOf_walkChildren,
      sizeChildren_of_errFree root root cs h3]

end Saurluhi

namespace Saurluhi

/-! ### The sorted walk is a permutation of the unsorted walk -/

theorem walkChildren_insertC (p : EPath) (nm : String) (n : FsNode) (cs : FsChildren) :
    List.Perm (walkChildren p (insertC nm n cs))
      (walkNode (p ++ [nm]) n ++ walkChildren p cs) := by
  match cs with
  | .nil => simp [insertC, walkChildren]
  | .cons nm2 n2 rest =>
    by_cases h : mtimeOf n ≤ mtimeOf n2
    · simp [insertC, h, walkChildren]
    · simp only [insertC, h, walkChildren, ite_false]
      exact ((walkChildren_insertC p nm n rest).append_left _).trans
        ((List.perm_append_comm_assoc _ _ _).trans (by simp))

theorem walkChildren_sortC (p : EPath) (cs : FsChildren) :
    List.Perm (walkChildren p (sortC cs)) (walkChildren p cs) := by
  match cs with
  | .nil => exact List.Perm.refl _
  | .cons nm n rest =>
    simp only [sortC, walkChildren]
    exact (walkChildren_insertC p nm n (sortC rest)).trans
      ((walkChildren_sortC p rest).append_left _)

mutual
theorem walkNode_sortTree (p : EPath) (n : FsNode) :
    List.Perm (walkNode p (sortTree n)) (walkNode p n) := by
  match n with
  | .file k sz mt me de => exact List.Perm.refl _
  | .dir mt me re cs =>
    simp only [sortTree, walkNode]
    exact ((walkChildren_sortC p (sortTreeChildren cs)).trans
      (walkChildren_sortTreeChildren p cs)).cons _

theorem walkChildren_sortTreeChildren (p : EPath) (cs : FsChildren) :
    List.Perm (walkChildren p (sortTreeChildren cs)) (walkChildren p cs) := by
  match cs with
  | .nil => exact List.Perm.refl _
  | .cons nm n rest =>
    simp only [sortTreeChildren, walkChildren]
    exact (walkNode_sortTree (p ++ [nm]) n).append (walkChildren_sortTreeChildren p rest)
end

/-- The pass-2 traversal order (everything below one directory) is a
permutation of the unsorted pass-1 walk of the same directory. -/
theorem sortedWalk_perm (p : EPath) (cs : FsChildren) :
    List.Perm (walkChildren p (sortC (sortTreeChildren cs))) (walkChildren p cs) :=
  (walkChildren_sortC p (sortTreeChildren cs)).trans (walkChildren_sortTreeChildren p cs)

end Saurluhi

namespace Saurluhi

/-! ### Accounting invariants of the eviction loop -/

theorem U64_pos : 0 < U64 := by unfold U64; positivity

theorem wsub_of_le {a b : Nat} (hb : b ≤ a) (ha : a < U64) : wsub a b = a - b := by
  have hb2 : b < U64 := lt_of_le_of_lt hb ha
  unfold wsub
  rw [Nat.mod_eq_of_lt ha, Nat.mod_eq_of_lt hb2]
  have h1 : a + (U64 - b) = U64 + (a - b) := by omega
  rw [h1, Nat.add_mod_left, Nat.mod_eq_of_lt (by omega)]

mutual
/-- While every non-directory entry has a counted type and the running
total dominates the counted size still ahead, the eviction loop never
aborts, never underflows, and its running total is exactly the initial
total minus what it consumed; in non-dry-run mode the consumed amount is
exactly the sum of the sizes of the deleted entries. -/
theorem evictNode_acc (dryRun keepParents : Bool) (goal : Nat) (root p : EPath)
    (n : FsNode) (size : Nat) (hef : errFreeN n = true) (hac : allCountedN n = true)
    (hle : countedN n ≤ size) (hfit : size < U64) :
    (evictNode dryRun keepParents goal root p n size).fatal = none
    ∧ (evictNode dryRun keepParents goal root p n size).wrapped = false
    ∧ size - countedN n ≤ (evictNode dryRun keepParents goal root p n size).finalSize
    ∧ (evictNode dryRun keepParents goal root p n size).finalSize ≤ size
    ∧ ((evictNode dryRun keepParents goal root p n size).underLimit = true →
        (evictNode dryRun keepParents goal root p n size).finalSize ≤ goal)
    ∧ ((evictNode dryRun keepParents goal root p n size).underLimit = false →
        (evictNode dryRun keepParents goal root p n size).finalSize = size - countedN n)
    ∧ (dryRun = false →
        ((evictNode dryRun keepParents goal root p n size).deleted.map fun e => e.sz).sum
          + (evictNode dryRun keepParents goal root p n size).finalSize = size) := by
  match n with
  | .file k sz mt me de =>
    simp only [errFreeN, Bool.and_eq_true, Option.isNone_iff_eq_none] at hef
    obtain ⟨hme, hde⟩ := hef
    subst hme hde
    simp only [allCountedN] at hac
    simp only [countedN, hac, if_true] at hle ⊢
    have hw : wsub size sz = size - sz := wsub_of_le hle hfit
    have hwrap : decide (size % U64 < sz % U64) = false := by
      rw [Nat.mod_eq_of_lt hfit, Nat.mod_eq_of_lt (lt_of_le_of_lt hle hfit)]
      simp only [decide_eq_false_iff_not, not_lt]
      exact hle
    simp only [evictNode, hw, hwrap]
    by_cases hd : dryRun
    · simp only [hd, if_true]
      split
      · refine ⟨rfl, rfl, le_refl _, Nat.sub_le _ _, ?_, ?_, ?_⟩
        · intro _; assumption
        · intro h; cases h
        · intro h; cases h
      · refine ⟨rfl, rfl, le_refl _, Nat.sub_le _ _, ?_, ?_, ?_⟩
        · intro h; cases h
        · intro _; rfl
        · intro h; cases h
    · simp only [hd, Bool.false_eq_true, if_false]
      split
      · refine ⟨rfl, rfl, le_refl _, Nat.sub_le _ _, ?_, ?_, ?_⟩
        · intro _; assumption
        · intro h; cases h
        · intro _
          simp only [List.map_cons, List.map_nil, List.sum_cons, List.sum_nil]
          omega
      · refine ⟨rfl, rfl, le_refl _, Nat.sub_le _ _, ?_, ?_, ?_⟩
        · intro h; cases h
        · intro _; rfl
        · intro _
          simp only [List.map_cons, List.map_nil, List.sum_cons, List.sum_nil]
          omega
  | .dir mt me re cs =>
    simp only [errFreeN, Bool.and_eq_true, Option.isNone_iff_eq_none] at hef
    obtain ⟨⟨hme, hre⟩, hcs⟩ := hef
    subst hme hre
    simp only [allCountedN] at hac
    simp only [countedN] at hle ⊢
    have ih := evictChildren_acc dryRun keepParents goal root p cs size hcs hac hle hfit
    simp only [evictNode, findMetaErrC_of_errFree p cs hcs]
    exact ih

theorem evictChildren_acc (dryRun keepParents : Bool) (goal : Nat) (root p : EPath)
    (cs : FsChildren) (size : Nat) (hef : errFreeC cs = true)
    (hac : allCountedC cs = true) (hle : countedC cs ≤ size) (hfit : size < U64) :
    (evictChildren dryRun keepParents goal root p cs size).fatal = none
    ∧ (evictChildren dryRun keepParents goal root p cs size).wrapped = false
    ∧ size - countedC cs ≤ (evictChildren dryRun keepParents goal root p cs size).finalSize
    ∧ (evictChildren dryRun keepParents goal root p cs size).finalSize ≤ size
    ∧ ((evictChildren dryRun keepParents goal root p cs size).underLimit = true →
        (evictChildren dryRun keepParents goal root p cs size).finalSize ≤ goal)
    ∧ ((evictChildren dryRun keepParents goal root p cs size).underLimit = false →
        (evictChildren dryRun keepParents goal root p cs size).finalSize = size - countedC cs)
    ∧ (dryRun = false →
        ((evictChildren dryRun keepParents goal root p cs size).deleted.map fun e => e.sz).sum
          + (evictChildren dryRun keepParents goal root p cs size).finalSize = size) := by
  match cs with
  | .nil =>
    simp only [countedC] at hle ⊢
    simp [evictChildren]
  | .cons nm n rest =>
    simp only [errFreeC, Bool.and_eq_true] at hef
    simp only [allCountedC, Bool.and_eq_true] at hac
    simp only [countedC] at hle ⊢
    have ih1 := evictNode_acc dryRun keepParents goal root (p ++ [nm]) n size hef.1 hac.1
      (le_trans (Nat.le_add_right _ _) hle) hfit
    obtain ⟨f1, w1, lo1, hi1, ul1, nul1, del1⟩ := ih1
    simp only [evictChildren]
    by_cases hstop : (evictNode dryRun keepParents goal root (p ++ [nm]) n size).stops
    · have hult : (evictNode dryRun keepParents goal root (p ++ [nm]) n size).underLimit
          = true := by
        simp only [P2Out.stops, f1, Bool.or_eq_true, Option.isSome_none] at hstop
        simpa using hstop
      simp only [hstop, if_true]
      refine ⟨f1, w1, ?_, hi1, ul1, ?_, del1⟩
      · exact le_trans (Nat.sub_le_sub_left (Nat.le_add_right _ _) size |>.trans
          (le_of_eq rfl)) (by omega)
      · intro hcontra
        rw [hult] at hcontra
        cases hcontra
    · have hulf : (evictNode dryRun keepParents goal root (p ++ [nm]) n size).underLimit
          = false := by
        simp only [P2Out.stops, f1, Bool.or_eq_true, Option.isSome_none] at hstop
        simpa using hstop
      have hfs1 := nul1 hulf
      have ih2 := evictChildren_acc dryRun keepParents goal root p rest
        (evictNode dryRun keepParents goal root (p ++ [nm]) n size).finalSize
        hef.2 hac.2 (by omega) (lt_of_le_of_lt hi1 hfit)
      obtain ⟨f2, w2, lo2, hi2, ul2, nul2, del2⟩ := ih2
      simp only [hstop, if_false, seqOut, Bool.false_eq_true]
      refine ⟨f2, by simp [w1, w2], by omega, by omega, ul2, ?_, ?_⟩
      · intro h2
        rw [nul2 h2, hfs1]
        omega
      · intro hdr
        have d1 := del1 hdr
        have d2 := del2 hdr
        simp only [List.map_append, List.sum_append]
        omega
end

end Saurluhi

namespace Saurluhi

/-! ### What the eviction loop deletes -/

theorem LeafKind_kind_not_dir (k : LeafKind) :
    ((LeafKind.kind k) == FileKind.directory) = false := by
  cases k <;> rfl

/-- The non-directory entries of a walk fragment: exactly the entries the
eviction loop subtracts and (in non-dry-run mode) unlinks. -/
def nonDirOf (l : List Entry) : List Entry :=
  l.filter fun e => !(e.kind == FileKind.directory)

theorem nonDirOf_append (a b : List Entry) :
    nonDirOf (a ++ b) = nonDirOf a ++ nonDirOf b := by
  simp [nonDirOf, List.filter_append]

mutual
/-- With no fault markers the loop never aborts; what it deletes is a
sublist of the non-directory entries of the traversal (everything up to the
stop point), the whole of them if the under-limit break never fired, and
nothing at all in dry-run mode (where remove_empty_ancestors is not invoked
either). -/
theorem evictNode_deleted (dryRun keepParents : Bool) (goal : Nat) (root p : EPath)
    (n : FsNode) (size : Nat) (hef : errFreeN n = true) :
    (evictNode dryRun keepParents goal root p n size).fatal = none
    ∧ (evictNode dryRun keepParents goal root p n size).deleted.Sublist
        (nonDirOf (walkNode p n))
    ∧ (dryRun = false →
        (evictNode dryRun keepParents goal root p n size).underLimit = false →
        (evictNode dryRun keepParents goal root p n size).deleted = nonDirOf (walkNode p n))
    ∧ (dryRun = true →
        (evictNode dryRun keepParents goal root p n size).deleted = []
        ∧ (evictNode dryRun keepParents goal root p n size).pruneCalls = []) := by
  match n with
  | .file k sz mt me de =>
    simp only [errFreeN, Bool.and_eq_true, Option.isNone_iff_eq_none] at hef
    obtain ⟨hme, hde⟩ := hef
    subst hme hde
    have hfil : nonDirOf (walkNode p (.file k sz mt none none))
        = [⟨p, k.kind, sz, mt⟩] := by
      simp [nonDirOf, walkNode, List.filter_cons, LeafKind_kind_not_dir k]
    simp only [evictNode, hfil]
    by_cases hd : dryRun
    · simp only [hd, if_true]
      split
      · refine ⟨rfl, List.nil_sublist _, ?_, ?_⟩
        · intro h; cases h
        · intro _; exact ⟨rfl, rfl⟩
      · refine ⟨rfl, List.nil_sublist _, ?_, ?_⟩
        · intro h; cases h
        · intro _; exact ⟨rfl, rfl⟩
    · simp only [hd, Bool.false_eq_true, if_false]
      split
      · refine ⟨rfl, List.Sublist.refl _, ?_, ?_⟩
        · intro _ h; cases h
        · intro h; cases h
      · refine ⟨rfl, List.Sublist.refl _, ?_, ?_⟩
        · intro _ _; rfl
        · intro h; cases h
  | .dir mt me re cs =>
    simp only [errFreeN, Bool.and_eq_true, Option.isNone_iff_eq_none] at hef
    obtain ⟨⟨hme, hre⟩, hcs⟩ := hef
    subst hme hre
    have hfil : nonDirOf (walkNode p (.dir mt none none cs))
        = nonDirOf (walkChildren p cs) := by
      simp [nonDirOf, walkNode, List.filter_cons]
    have ih := evictChildren_deleted dryRun keepParents goal root p cs size hcs
    simp only [evictNode, findMetaErrC_of_errFree p cs hcs, hfil]
    exact ih

theorem evictChildren_deleted (dryRun keepParents : Bool) (goal : Nat) (root p : EPath)
    (cs : FsChildren) (size : Nat) (hef : errFreeC cs = true) :
    (evictChildren dryRun keepParents goal root p cs size).fatal = none
    ∧ (evictChildren dryRun keepParents goal root p cs size).deleted.Sublist
        (nonDirOf (walkChildren p cs))
    ∧ (dryRun = false →
        (evictChildren dryRun keepParents goal root p cs size).underLimit = false →
        (evictChildren dryRun keepParents goal root p cs size).deleted
          = nonDirOf (walkChildren p cs))
    ∧ (dryRun = true →
        (evictChildren dryRun keepParents goal root p cs size).deleted = []
        ∧ (evictChildren dryRun keepParents goal root p cs size).pruneCalls = []) := by
  match cs with
  | .nil =>
    simp [evictChildren, walkChildren, nonDirOf]
  | .cons nm n rest =>
    simp only [errFreeC, Bool.and_eq_true] at hef
    have ih1 := evictNode_deleted dryRun keepParents goal root (p ++ [nm]) n size hef.1
    obtain ⟨f1, sub1, all1, dry1⟩ := ih1
    simp only [evictChildren, walkChildren, nonDirOf_append]
    by_cases hstop : (evictNode dryRun keepParents goal root (p ++ [nm]) n size).stops
    · have hult : (evictNode dryRun keepParents goal root (p ++ [nm]) n size).underLimit
          = true := by
        simp only [P2Out.stops, f1, Bool.or_eq_true, Option.isSome_none] at hstop
        simpa using hstop
      simp only [hstop, if_true]
      refine ⟨f1, sub1.trans (List.sublist_append_left _ _), ?_, dry1⟩
      intro _ hcontra
      rw [hult] at hcontra
      cases hcontra
    · have hulf : (evictNode dryRun keepParents goal root (p ++ [nm]) n size).underLimit
          = false := by
        simp only [P2Out.stops, f1, Bool.or_eq_true, Option.isSome_none] at hstop
        simpa using hstop
      have ih2 := evictChildren_deleted dryRun keepParents goal root p rest
        (evictNode dryRun keepParents goal root (p ++ [nm]) n size).finalSize hef.2
      obtain ⟨f2, sub2, all2, dry2⟩ := ih2
      simp only [hstop, if_false, seqOut, Bool.false_eq_true]
      refine ⟨f2, sub1.append sub2, ?_, ?_⟩
      · intro hdr hul
        rw [all1 hdr hulf, all2 hdr hul]
      · intro hdr
        obtain ⟨d1, p1⟩ := dry1 hdr
        obtain ⟨d2, p2⟩ := dry2 hdr
        simp [d1, d2, p1, p2]
end

end Saurluhi

namespace Saurluhi

/-! ### Dry-run mode: same trace, no mutation -/

mutual
/-- With no fault markers, the dry-run and the real eviction loop visit the
same entries, report the same trace and running totals, stop at the same
point, and wrap in the same way − the only difference is that the dry run
unlinks nothing and never invokes remove_empty_ancestors. -/
theorem evictNode_dry (keepParents : Bool) (goal : Nat) (root p : EPath)
    (n : FsNode) (size : Nat) (hef : errFreeN n = true) :
    (evictNode true keepParents goal root p n size).visited
        = (evictNode false keepParents goal root p n size).visited
    ∧ (evictNode true keepParents goal root p n size).trace
        = (evictNode false keepParents goal root p n size).trace
    ∧ (evictNode true keepParents goal root p n size).underLimit
        = (evictNode false keepParents goal root p n size).underLimit
    ∧ (evictNode true keepParents goal root p n size).wrapped
        = (evictNode false keepParents goal root p n size).wrapped
    ∧ (evictNode true keepParents goal root p n size).finalSize
        = (evictNode false keepParents goal root p n size).finalSize
    ∧ (evictNode true keepParents goal root p n size).fatal
        = (evictNode false keepParents goal root p n size).fatal := by
  match n with
  | .file k sz mt me de =>
    simp only [errFreeN, Bool.and_eq_true, Option.isNone_iff_eq_none] at hef
    obtain ⟨hme, hde⟩ := hef
    subst hme hde
    simp only [evictNode, if_true, Bool.false_eq_true, if_false]
    split
    · exact ⟨rfl, rfl, rfl, rfl, rfl, rfl⟩
    · exact ⟨rfl, rfl, rfl, rfl, rfl, rfl⟩
  | .dir mt me re cs =>
    simp only [errFreeN, Bool.and_eq_true, Option.isNone_iff_eq_none] at hef
    obtain ⟨⟨hme, hre⟩, hcs⟩ := hef
    subst hme hre
    have ih := evictChildren_dry keepParents goal root p cs size hcs
    simp only [evictNode, findMetaErrC_of_errFree p cs hcs]
    exact ⟨by rw [ih.1], ih.2.1, ih.2.2.1, ih.2.2.2.1, ih.2.2.2.2.1, ih.2.2.2.2.2⟩

theorem evictChildren_dry (keepParents : Bool) (goal : Nat) (root p : EPath)
    (cs : FsChildren) (size : Nat) (hef : errFreeC cs = true) :
    (evictChildren true keepParents goal root p cs size).visited
        = (evictChildren false keepParents goal root p cs size).visited
    ∧ (evictChildren true keepParents goal root p cs size).trace
        = (evictChildren false keepParents goal root p cs size).trace
    ∧ (evictChildren true keepParents goal root p cs size).underLimit
        = (evictChildren false keepParents goal root p cs size).underLimit
    ∧ (evictChildren true keepParents goal root p cs size).wrapped
        = (evictChildren false keepParents goal root p cs size).wrapped
    ∧ (evictChildren true keepParents goal root p cs size).finalSize
        = (evictChildren false keepParents goal root p cs size).finalSize
    ∧ (evictChildren true keepParents goal root p cs size).fatal
        = (evictChildren false keepParents goal root p cs size).fatal := by
  match cs with
  | .nil => exact ⟨rfl, rfl, rfl, rfl, rfl, rfl⟩
  | .cons nm n rest =>
    simp only [errFreeC, Bool.and_eq_true] at hef
    have ih1 := evictNode_dry keepParents goal root (p ++ [nm]) n size hef.1
    obtain ⟨v1, t1, u1, w1, s1, f1⟩ := ih1
    have hstops : (evictNode true keepParents goal root (p ++ [nm]) n size).stops
        = (evictNode false keepParents goal root (p ++ [nm]) n size).stops := by
      simp only [P2Out.stops, u1, f1]
    simp only [evictChildren]
    by_cases hstop : (evictNode false keepParents goal root (p ++ [nm]) n size).stops
    · rw [hstops, hstop]
      simp only [if_true]
      exact ⟨v1, t1, u1, w1, s1, f1⟩
    · rw [hstops]
      simp only [hstop, if_false, Bool.false_eq_true]
      have ih2 := evictChildren_dry keepParents goal root p rest
        (evictNode false keepParents goal root (p ++ [nm]) n size).finalSize hef.2
      rw [s1]
      obtain ⟨v2, t2, u2, w2, s2, f2⟩ := ih2
      simp [seqOut, v1, t1, u1, w1, s1, f1, v2, t2, u2, w2, s2, f2]
end

/-! ### The operations a fatal diagnostic can name -/

theorem findMetaErrC_op (p : EPath) (cs : FsChildren) (d : Diag)
    (h : findMetaErrC p cs = some d) : d.op = "getting metadata on" := by
  match cs with
  | .nil => cases h
  | .cons nm n rest =>
    simp only [findMetaErrC] at h
    cases hm : metaErrOf n with
    | some s => rw [hm] at h; cases h; rfl
    | none => rw [hm] at h; exact findMetaErrC_op p rest d h

mutual
/-- Any abort of the eviction loop names one of the operations the loop
performs. -/
theorem evictNode_op (dryRun keepParents : Bool) (goal : Nat) (root p : EPath)
    (n : FsNode) (size : Nat) (d : Diag)
    (h : (evictNode dryRun keepParents goal root p n size).fatal = some d) :
    d.op = "getting metadata on" ∨ d.op = "reading" ∨ d.op = "deleting" := by
  match n with
  | .file k sz mt me de =>
    cases me with
    | some s => simp only [evictNode] at h; cases h; exact Or.inl rfl
    | none =>
      simp only [evictNode] at h
      by_cases hd : dryRun
      · rw [if_pos hd] at h
        split at h <;> cases h
      · rw [if_neg hd] at h
        cases de with
        | some s =>
          simp only at h
          cases h
          exact Or.inr (Or.inr rfl)
        | none =>
          simp only at h
          split at h <;> simp_all
  | .dir mt me re cs =>
    cases me with
    | some s => simp only [evictNode] at h; cases h; exact Or.inl rfl
    | none =>
      cases re with
      | some s => simp only [evictNode] at h; cases h; exact Or.inr (Or.inl rfl)
      | none =>
        simp only [evictNode] at h
        cases hf : findMetaErrC p cs with
        | some d2 =>
          rw [hf] at h
          cases h
          exact Or.inl (findMetaErrC_op p cs d hf)
        | none =>
          rw [hf] at h
          exact evictChildren_op dryRun keepParents goal root p cs size d h

theorem evictChildren_op (dryRun keepParents : Bool) (goal : Nat) (root p : EPath)
    (cs : FsChildren) (size : Nat) (d : Diag)
    (h : (evictChildren dryRun keepParents goal root p cs size).fatal = some d) :
    d.op = "getting metadata on" ∨ d.op = "reading" ∨ d.op = "deleting" := by
  match cs with
  | .nil => cases h
  | .cons nm n rest =>
    simp only [evictChildren] at h
    by_cases hstop : (evictNode dryRun keepParents goal root (p ++ [nm]) n size).stops
    · rw [if_pos hstop] at h
      exact evictNode_op dryRun keepParents goal root (p ++ [nm]) n size d h
    · rw [if_neg hstop] at h
      exact evictChildren_op dryRun keepParents goal root p rest _ d h
end

mutual
theorem sizeNode_op (root p : EPath) (n : FsNode) (d : Diag)
    (h : sizeNode root p n = Except.error d) :
    d.op = "walking" ∨ d.op = "getting metadata of" := by
  match n with
  | .file k sz mt me de =>
    simp only [sizeNode] at h
    split at h
    · cases me with
      | some s => cases h; exact Or.inr rfl
      | none => cases h
    · cases h
  | .dir mt me re cs =>
    simp only [sizeNode] at h
    cases re with
    | some s => cases h; exact Or.inl rfl
    | none => exact sizeChildren_op root p cs d h

theorem sizeChildren_op (root p : EPath) (cs : FsChildren) (d : Diag)
    (h : sizeChildren root p cs = Except.error d) :
    d.op = "walking" ∨ d.op = "getting metadata of" := by
  match cs with
  | .nil => cases h
  | .cons nm n rest =>
    simp only [sizeChildren] at h
    cases h1 : sizeNode root (p ++ [nm]) n with
    | error d1 =>
      rw [h1] at h
      cases h
      exact sizeNode_op root (p ++ [nm]) n d h1
    | ok a =>
      rw [h1] at h
      cases h2 : sizeChildren root p rest with
      | error d2 =>
        rw [h2] at h
        cases h
        exact sizeChildren_op root p rest d h2
      | ok b => rw [h2] at h; cases h
end

end Saurluhi

namespace Saurluhi

/-! ### Erasing fault markers: commutation and preservation -/

theorem mtimeOf_eraseN (n : FsNode) : mtimeOf (eraseN n) = mtimeOf n := by
  cases n <;> rfl

theorem metaErrOf_eraseN (n : FsNode) : metaErrOf (eraseN n) = none := by
  cases n <;> rfl

mutual
theorem errFreeN_eraseN (n : FsNode) : errFreeN (eraseN n) = true := by
  match n with
  | .file k sz mt me de => rfl
  | .dir mt me re cs => simp [eraseN, errFreeN, errFreeC_eraseC cs]

theorem errFreeC_eraseC (cs : FsChildren) : errFreeC (eraseC cs) = true := by
  match cs with
  | .nil => rfl
  | .cons nm n rest => simp [eraseC, errFreeC, errFreeN_eraseN n, errFreeC_eraseC rest]
end

theorem insertC_eraseN (nm : String) (n : FsNode) (cs : FsChildren) :
    insertC nm (eraseN n) (eraseC cs) = eraseC (insertC nm n cs) := by
  match cs with
  | .nil => rfl
  | .cons nm2 n2 rest =>
    by_cases h : mtimeOf n ≤ mtimeOf n2
    · simp [insertC, eraseC, mtimeOf_eraseN, h]
    · simp [insertC, eraseC, mtimeOf_eraseN, h, insertC_eraseN nm n rest]

theorem sortC_eraseC (cs : FsChildren) : sortC (eraseC cs) = eraseC (sortC cs) := by
  match cs with
  | .nil => rfl
  | .cons nm n rest => simp [sortC, eraseC, sortC_eraseC rest, insertC_eraseN]

mutual
theorem sortTree_eraseN (n : FsNode) : sortTree (eraseN n) = eraseN (sortTree n) := by
  match n with
  | .file k sz mt me de => rfl
  | .dir mt me re cs =>
    simp [sortTree, eraseN, sortTreeChildren_eraseC cs, sortC_eraseC]

theorem sortTreeChildren_eraseC (cs : FsChildren) :
    sortTreeChildren (eraseC cs) = eraseC (sortTreeChildren cs) := by
  match cs with
  | .nil => rfl
  | .cons nm n rest =>
    simp [sortTreeChildren, eraseC, sortTree_eraseN n, sortTreeChildren_eraseC rest]
end

mutual
theorem walkNode_eraseN (p : EPath) (n : FsNode) : walkNode p (eraseN n) = walkNode p n := by
  match n with
  | .file k sz mt me de => rfl
  | .dir mt me re cs => simp [walkNode, eraseN, walkChildren_eraseC p cs]

theorem walkChildren_eraseC (p : EPath) (cs : FsChildren) :
    walkChildren p (eraseC cs) = walkChildren p cs := by
  match cs with
  | .nil => rfl
  | .cons nm n rest =>
    simp [walkChildren, eraseC, walkNode_eraseN (p ++ [nm]) n, walkChildren_eraseC p rest]
end

mutual
theorem countedN_eraseN (n : FsNode) : countedN (eraseN n) = countedN n := by
  match n with
  | .file k sz mt me de => rfl
  | .dir mt me re cs => simp [countedN, eraseN, countedC_eraseC cs]

theorem countedC_eraseC (cs : FsChildren) : countedC (eraseC cs) = countedC cs := by
  match cs with
  | .nil => rfl
  | .cons nm n rest => simp [countedC, eraseC, countedN_eraseN n, countedC_eraseC rest]
end

/-! ### The value pass 1 returns when it succeeds -/

mutual
theorem sizeNode_ok_val (root p : EPath) (n : FsNode) (v : Nat)
    (h : sizeNode root p n = Except.ok v) : v = countedN n := by
  match n with
  | .file k sz mt me de =>
    simp only [sizeNode] at h
    split at h
    · cases me with
      | some s => cases h
      | none =>
        cases h
        simp only [countedN]
        split
        · rfl
        · simp_all
    · cases h
      simp only [countedN]
      split
      · simp_all
      · rfl
  | .dir mt me re cs =>
    simp only [sizeNode] at h
    cases re with
    | some s => cases h
    | none => simpa [countedN] using sizeChildren_ok_val root p cs v h

theorem sizeChildren_ok_val (root p : EPath) (cs : FsChildren) (v : Nat)
    (h : sizeChildren root p cs = Except.ok v) : v = countedC cs := by
  match cs with
  | .nil => cases h; rfl
  | .cons nm n rest =>
    simp only [sizeChildren] at h
    cases h1 : sizeNode root (p ++ [nm]) n with
    | error d1 => rw [h1] at h; cases h
    | ok a =>
      rw [h1] at h
      cases h2 : sizeChildren root p rest with
      | error d2 => rw [h2] at h; cases h
      | ok b =>
        rw [h2] at h
        cases h
        rw [countedC, ← sizeNode_ok_val root (p ++ [nm]) n a h1,
          ← sizeChildren_ok_val root p rest b h2]
end

theorem pass1_ok_val (root : EPath) (t : FsNode) (v : Nat)
    (h : pass1 root t = Except.ok v) : v = totalCounted root t := by
  match t with
  | .file k sz mt me de =>
    cases h
    simp [totalCounted, walk, countedOf]
  | .dir mt me re cs =>
    simp only [pass1] at h
    cases re with
    | some s => cases h
    | none =>
      rw [totalCounted, walk, countedOf_walkChildren]
      exact sizeChildren_ok_val root root cs v h

theorem pass1_eraseN (root : EPath) (t : FsNode) (v : Nat)
    (h : pass1 root t = Except.ok v) : pass1 root (eraseN t) = Except.ok v := by
  rw [pass1_of_errFree root (eraseN t) (errFreeN_eraseN t)]
  rw [pass1_ok_val root t v h]
  rw [totalCounted, totalCounted]
  cases t with
  | file k sz mt me de => rfl
  | dir mt me re cs => simp [eraseN, walk, walkChildren_eraseC]

end Saurluhi

namespace Saurluhi

theorem findMetaErrC_eraseC (p : EPath) (cs : FsChildren) :
    findMetaErrC p (eraseC cs) = none := by
  match cs with
  | .nil => rfl
  | .cons nm n rest =>
    simp [findMetaErrC, eraseC, metaErrOf_eraseN n, findMetaErrC_eraseC p rest]

theorem evictNode_erased_fatal (dryRun keepParents : Bool) (goal : Nat) (root p : EPath)
    (n : FsNode) (size : Nat) :
    (evictNode dryRun keepParents goal root p (eraseN n) size).fatal = none :=
  (evictNode_deleted dryRun keepParents goal root p (eraseN n) size (errFreeN_eraseN n)).1

theorem evictChildren_erased_fatal (dryRun keepParents : Bool) (goal : Nat) (root p : EPath)
    (cs : FsChildren) (size : Nat) :
    (evictChildren dryRun keepParents goal root p (eraseC cs) size).fatal = none :=
  (evictChildren_deleted dryRun keepParents goal root p (eraseC cs) size (errFreeC_eraseC cs)).1

mutual
/-- An aborting run deletes a prefix of what the fault-free run on the same
snapshot deletes: nothing is deleted past the first failing operation, and
when no operation fails the run behaves exactly like the fault-free one. -/
theorem evictNode_erase (dryRun keepParents : Bool) (goal : Nat) (root p : EPath)
    (n : FsNode) (size : Nat) :
    ((evictNode dryRun keepParents goal root p n size).fatal = none →
      (evictNode dryRun keepParents goal root p (eraseN n) size).deleted
          = (evictNode dryRun keepParents goal root p n size).deleted
      ∧ (evictNode dryRun keepParents goal root p (eraseN n) size).finalSize
          = (evictNode dryRun keepParents goal root p n size).finalSize
      ∧ (evictNode dryRun keepParents goal root p (eraseN n) size).underLimit
          = (evictNode dryRun keepParents goal root p n size).underLimit)
    ∧ ∃ s, (evictNode dryRun keepParents goal root p n size).deleted ++ s
        = (evictNode dryRun keepParents goal root p (eraseN n) size).deleted := by
  match n with
  | .file k sz mt me de =>
    cases me with
    | some s =>
      constructor
      · intro h
        simp only [evictNode] at h
        cases h
      · exact ⟨(evictNode dryRun keepParents goal root p
            (eraseN (.file k sz mt (some s) de)) size).deleted, rfl⟩
    | none =>
      cases de with
      | some s =>
        by_cases hd : dryRun
        · have hsame : evictNode dryRun keepParents goal root p
              (.file k sz mt none (some s)) size
              = evictNode dryRun keepParents goal root p (.file k sz mt none none) size := by
            simp only [evictNode, hd, if_true]
          have he : eraseN (FsNode.file k sz mt none (some s))
              = .file k sz mt none none := rfl
          rw [he, hsame]
          exact ⟨fun _ => ⟨rfl, rfl, rfl⟩, [], by simp⟩
        · constructor
          · intro h
            simp only [evictNode, hd, Bool.false_eq_true, if_false] at h
            cases h
          · refine ⟨(evictNode dryRun keepParents goal root p
                (eraseN (.file k sz mt none (some s))) size).deleted, ?_⟩
            have hl : (evictNode dryRun keepParents goal root p
                (.file k sz mt none (some s)) size).deleted = [] := by
              simp only [evictNode, hd, Bool.false_eq_true, if_false]
            rw [hl]
            rfl
      | none =>
        have he : eraseN (FsNode.file k sz mt none none) = .file k sz mt none none := rfl
        rw [he]
        exact ⟨fun _ => ⟨rfl, rfl, rfl⟩, [], by simp⟩
  | .dir mt me re cs =>
    cases me with
    | some s =>
      constructor
      · intro h
        simp only [evictNode] at h
        cases h
      · exact ⟨(evictNode dryRun keepParents goal root p
            (eraseN (.dir mt (some s) re cs)) size).deleted, rfl⟩
    | none =>
      cases re with
      | some s =>
        constructor
        · intro h
          simp only [evictNode] at h
          cases h
        · exact ⟨(evictNode dryRun keepParents goal root p
              (eraseN (.dir mt none (some s) cs)) size).deleted, rfl⟩
      | none =>
        have he : eraseN (FsNode.dir mt none none cs) = .dir mt none none (eraseC cs) := rfl
        rw [he]
        cases hf : findMetaErrC p cs with
        | some d =>
          constructor
          · intro h
            simp only [evictNode, hf] at h
            cases h
          · refine ⟨(evictNode dryRun keepParents goal root p
                (.dir mt none none (eraseC cs)) size).deleted, ?_⟩
            have hl : (evictNode dryRun keepParents goal root p
                (.dir mt none none cs) size).deleted = [] := by
              simp only [evictNode, hf]
            rw [hl]
            rfl
        | none =>
          have ih := evictChildren_erase dryRun keepParents goal root p cs size
          simp only [evictNode, hf, findMetaErrC_eraseC]
          exact ih

theorem evictChildren_erase (dryRun keepParents : Bool) (goal : Nat) (root p : EPath)
    (cs : FsChildren) (size : Nat) :
    ((evictChildren dryRun keepParents goal root p cs size).fatal = none →
      (evictChildren dryRun keepParents goal root p (eraseC cs) size).deleted
          = (evictChildren dryRun keepParents goal root p cs size).deleted
      ∧ (evictChildren dryRun keepParents goal root p (eraseC cs) size).finalSize
          = (evictChildren dryRun keepParents goal root p cs size).finalSize
      ∧ (evictChildren dryRun keepParents goal root p (eraseC cs) size).underLimit
          = (evictChildren dryRun keepParents goal root p cs size).underLimit)
    ∧ ∃ s, (evictChildren dryRun keepParents goal root p cs size).deleted ++ s
        = (evictChildren dryRun keepParents goal root p (eraseC cs) size).deleted := by
  match cs with
  | .nil => exact ⟨fun _ => ⟨rfl, rfl, rfl⟩, [], rfl⟩
  | .cons nm n rest =>
    obtain ⟨ih1eq, s1, ih1pre⟩ := evictNode_erase dryRun keepParents goal root (p ++ [nm]) n size
    have herased : eraseC (FsChildren.cons nm n rest) = .cons nm (eraseN n) (eraseC rest) := rfl
    rw [herased]
    simp only [evictChildren]
    by_cases hstop : (evictNode dryRun keepParents goal root (p ++ [nm]) n size).stops
    · rw [if_pos hstop]
      cases hf1 : (evictNode dryRun keepParents goal root (p ++ [nm]) n size).fatal with
      | none =>
        have hul1 : (evictNode dryRun keepParents goal root (p ++ [nm]) n size).underLimit
            = true := by
          simp only [P2Out.stops, hf1, Bool.or_eq_true, Option.isSome_none] at hstop
          simpa using hstop
        obtain ⟨hdel, hfs, hul⟩ := ih1eq hf1
        have hstopR : (evictNode dryRun keepParents goal root (p ++ [nm]) (eraseN n) size).stops
            = true := by
          simp only [P2Out.stops, hul, hul1, Bool.true_or]
        rw [hstopR]
        exact ⟨fun _ => ⟨hdel, hfs, hul⟩, [], by rw [List.append_nil]; exact hdel.symm⟩
      | some d =>
        refine ⟨fun h => ?_, ?_⟩
        · cases h
        · by_cases hstopR :
              (evictNode dryRun keepParents goal root (p ++ [nm]) (eraseN n) size).stops
          · rw [hstopR]
            exact ⟨s1, ih1pre⟩
          · rw [if_neg hstopR]
            refine ⟨s1 ++ (evictChildren dryRun keepParents goal root p (eraseC rest)
              (evictNode dryRun keepParents goal root (p ++ [nm]) (eraseN n) size).finalSize).deleted, ?_⟩
            simp only [seqOut, ← List.append_assoc, ih1pre]
    · rw [if_neg hstop]
      have hf1 : (evictNode dryRun keepParents goal root (p ++ [nm]) n size).fatal = none := by
        cases hc : (evictNode dryRun keepParents goal root (p ++ [nm]) n size).fatal with
        | none => rfl
        | some d =>
          exfalso
          apply hstop
          simp [P2Out.stops, hc]
      have hul1 : (evictNode dryRun keepParents goal root (p ++ [nm]) n size).underLimit
          = false := by
        cases hc : (evictNode dryRun keepParents goal root (p ++ [nm]) n size).underLimit with
        | false => rfl
        | true =>
          exfalso
          apply hstop
          simp [P2Out.stops, hc]
      obtain ⟨hdel, hfs, hul⟩ := ih1eq hf1
      have hstopR : (evictNode dryRun keepParents goal root (p ++ [nm]) (eraseN n) size).stops
          = false := by
        simp [P2Out.stops, hul, hul1, evictNode_erased_fatal]
      rw [hstopR]
      simp only [Bool.false_eq_true, if_false]
      obtain ⟨ih2eq, s2, ih2pre⟩ := evictChildren_erase dryRun keepParents goal root p rest
        (evictNode dryRun keepParents goal root (p ++ [nm]) n size).finalSize
      rw [hfs]
      constructor
      · intro h
        simp only [seqOut] at h
        obtain ⟨hdel2, hfs2, hul2⟩ := ih2eq h
        refine ⟨?_, ?_, ?_⟩ <;> simp [seqOut, hdel, hdel2, hfs2, hul2]
      · refine ⟨s2, ?_⟩
        simp only [seqOut, hdel, ← ih2pre, List.append_assoc]
end

end Saurluhi

namespace Saurluhi

/-! ### Remaining counted size after deleting a subcollection of entries -/

theorem filter_contains_perm {α β : Type} [DecidableEq α] [BEq β] [LawfulBEq β] (f : α → β) :
    ∀ (D W : List α), (W.map f).Nodup → D.Subperm W →
      List.Perm (W.filter fun e => (D.map f).contains (f e)) D := by
  intro D
  induction D with
  | nil =>
    intro W _ _
    simp
  | cons a D2 ih =>
    intro W hnd hsub
    have haW : a ∈ W := hsub.subset (List.mem_cons_self a D2)
    have hperm : List.Perm W (a :: W.erase a) := List.perm_cons_erase haW
    have hmapperm : List.Perm (W.map f) (f a :: (W.erase a).map f) := by
      simpa using hperm.map f
    have hnd2 : (f a :: (W.erase a).map f).Nodup := hmapperm.nodup_iff.mp hnd
    have hfa : f a ∉ (W.erase a).map f := (List.nodup_cons.mp hnd2).1
    have hsub2 : D2.Subperm (W.erase a) := by
      have h1 := hsub.erase a
      rwa [List.erase_cons_head] at h1
    have ih2 := ih (W.erase a) (List.nodup_cons.mp hnd2).2 hsub2
    have hca : ((a :: D2).map f).contains (f a) = true := by
      simp [List.contains_cons]
    have hcongr : (W.erase a).filter (fun e => ((a :: D2).map f).contains (f e))
        = (W.erase a).filter (fun e => (D2.map f).contains (f e)) := by
      apply List.filter_congr
      intro e he
      have hne : (f e == f a) = false := by
        apply beq_eq_false_iff_ne.mpr
        intro heq
        exact hfa (heq ▸ List.mem_map_of_mem f he)
      simp only [List.map_cons, List.contains_cons, hne, Bool.false_or]
    have hstep : (a :: W.erase a).filter (fun e => ((a :: D2).map f).contains (f e))
        = a :: (W.erase a).filter (fun e => (D2.map f).contains (f e)) := by
      rw [List.filter_cons]
      simp only [hca, if_true]
      rw [hcongr]
    exact (hperm.filter _).trans (by rw [hstep]; exact ih2.cons a)

theorem sumSz_filter_partition (q c : Entry → Bool) (W : List Entry) :
    ((W.filter fun e => q e && c e).map fun e => e.sz).sum
      + ((W.filter fun e => q e && !(c e)).map fun e => e.sz).sum
    = ((W.filter q).map fun e => e.sz).sum := by
  induction W with
  | nil => rfl
  | cons a W ih =>
    cases hq : q a <;> cases hc : c a <;>
      simp [List.filter_cons, hq, hc] <;> omega

/-- Deleting a duplicate-free subcollection of counted walk entries leaves
exactly the total counted size minus the sizes of the deleted entries. -/
theorem remainingCountedSize_eq (root : EPath) (t : FsNode) (D : List Entry)
    (hnd : ((walk root t).map fun e => e.path).Nodup)
    (hsub : D.Subperm (walk root t))
    (hq : ∀ e ∈ D, counted_file_type e.kind = true) :
    remainingCountedSize root t (D.map fun e => e.path)
      = totalCounted root t - (D.map fun e => e.sz).sum := by
  have hperm := filter_contains_perm (fun e => e.path) D (walk root t) hnd hsub
  have hpart := sumSz_filter_partition (fun e => counted_file_type e.kind)
    (fun e => (D.map fun x => x.path).contains e.path) (walk root t)
  have hfc : (walk root t).filter
      (fun e => counted_file_type e.kind && (D.map fun x => x.path).contains e.path)
      = ((walk root t).filter
          (fun e => (D.map fun x => x.path).contains e.path)).filter
        (fun e => counted_file_type e.kind) := by
    rw [List.filter_filter]
  have hDq : D.filter (fun e => counted_file_type e.kind) = D :=
    List.filter_eq_self.mpr hq
  have hpermq : List.Perm ((walk root t).filter
      (fun e => counted_file_type e.kind && (D.map fun x => x.path).contains e.path)) D := by
    rw [hfc]
    have h2 := hperm.filter (fun e => counted_file_type e.kind)
    rw [hDq] at h2
    exact h2
  have hsum1 : (((walk root t).filter
      (fun e => counted_file_type e.kind
        && (D.map fun x => x.path).contains e.path)).map fun e => e.sz).sum
      = (D.map fun e => e.sz).sum := by
    exact List.Perm.sum_eq (hpermq.map fun e => e.sz)
  rw [remainingCountedSize, totalCounted, countedOf]
  omega

mutual
/-- In a tree whose non-directory nodes all have counted types, every walk
entry is a directory entry or a counted one. -/
theorem walkNode_allCounted (p : EPath) (n : FsNode) (h : allCountedN n = true) :
    ∀ e ∈ walkNode p n, e.kind = FileKind.directory ∨ counted_file_type e.kind = true := by
  match n with
  | .file k sz mt me de =>
    intro e he
    simp only [walkNode, List.mem_singleton] at he
    subst he
    simp only [allCountedN] at h
    exact Or.inr h
  | .dir mt me re cs =>
    intro e he
    simp only [walkNode, List.mem_cons] at he
    cases he with
    | inl h1 => subst h1; exact Or.inl rfl
    | inr h2 =>
      simp only [allCountedN] at h
      exact walkChildren_allCounted p cs h e h2

theorem walkChildren_allCounted (p : EPath) (cs : FsChildren) (h : allCountedC cs = true) :
    ∀ e ∈ walkChildren p cs,
      e.kind = FileKind.directory ∨ counted_file_type e.kind = true := by
  match cs with
  | .nil => intro e he; cases he
  | .cons nm n rest =>
    simp only [allCountedC, Bool.and_eq_true] at h
    intro e he
    simp only [walkChildren, List.mem_append] at he
    cases he with
    | inl h1 => exact walkNode_allCounted (p ++ [nm]) n h.1 e h1
    | inr h2 => exact walkChildren_allCounted p rest h.2 e h2
end

end Saurluhi

namespace Saurluhi

/-! ### The ancestor pruner -/

theorem pathAncestors_drop_one (p : EPath) :
    (pathAncestors p).drop 1 = (List.range p.length).reverse.map fun k => p.take k := by
  rw [pathAncestors, List.range_succ, List.reverse_append]
  simp

theorem pruneLoop_mem (ok : EPath → Bool) (within : EPath) :
    ∀ (l : List EPath), ∀ pr ∈ pruneLoop ok within l,
      pr.1 ∈ l ∧ within.isPrefixOf pr.1 = true := by
  intro l
  induction l with
  | nil => intro pr hpr; cases hpr
  | cons a rest ih =>
    intro pr hpr
    simp only [pruneLoop] at hpr
    by_cases hpre : within.isPrefixOf a
    · rw [if_pos hpre] at hpr
      by_cases hok : ok a
      · rw [if_pos hok] at hpr
        cases hpr with
        | head => exact ⟨List.mem_cons_self a rest, hpre⟩
        | tail _ h2 =>
          obtain ⟨hm, hp⟩ := ih pr h2
          exact ⟨List.mem_cons_of_mem a hm, hp⟩
      · rw [if_neg hok] at hpr
        cases hpr with
        | head => exact ⟨List.mem_cons_self a rest, hpre⟩
        | tail _ h2 => cases h2
    · rw [if_neg hpre] at hpr
      cases hpr

theorem pruneLoop_fst_sublist (ok : EPath → Bool) (within : EPath) :
    ∀ (l : List EPath), ((pruneLoop ok within l).map Prod.fst).Sublist l := by
  intro l
  induction l with
  | nil => exact List.Sublist.refl _
  | cons a rest ih =>
    simp only [pruneLoop]
    by_cases hpre : within.isPrefixOf a
    · rw [if_pos hpre]
      by_cases hok : ok a
      · rw [if_pos hok]
        simpa using ih.cons₂ a
      · rw [if_neg hok]
        simp
    · rw [if_neg hpre]
      exact List.nil_sublist _

theorem pruneLoop_dropLast (ok : EPath → Bool) (within : EPath) :
    ∀ (l : List EPath), ∀ pr ∈ (pruneLoop ok within l).dropLast, pr.2 = true := by
  intro l
  induction l with
  | nil => intro pr hpr; cases hpr
  | cons a rest ih =>
    intro pr hpr
    simp only [pruneLoop] at hpr
    by_cases hpre : within.isPrefixOf a
    · rw [if_pos hpre] at hpr
      by_cases hok : ok a
      · rw [if_pos hok] at hpr
        cases hr : pruneLoop ok within rest with
        | nil => rw [hr] at hpr; cases hpr
        | cons b bs =>
          rw [hr, List.dropLast_cons₂] at hpr
          cases hpr with
          | head => rfl
          | tail _ h2 =>
            apply ih
            rw [hr]
            exact h2
      · rw [if_neg hok] at hpr
        cases hpr
    · rw [if_neg hpre] at hpr
      cases hpr

theorem pruneLoop_all_ok (ok : EPath → Bool) (within : EPath) (hok : ∀ q, ok q = true) :
    ∀ (l : List EPath), pruneLoop ok within l
      = (l.takeWhile fun a => within.isPrefixOf a).map fun a => (a, true) := by
  intro l
  induction l with
  | nil => rfl
  | cons a rest ih =>
    simp only [pruneLoop, List.takeWhile_cons]
    by_cases hpre : within.isPrefixOf a
    · rw [if_pos hpre, if_pos hpre, hok a, if_pos rfl, ih]
      rfl
    · rw [if_neg hpre, if_neg hpre]
      rfl

theorem take_mem_takeWhile (p : EPath) (m : Nat) :
    ∀ K, m < K → p.take m ∈ (((List.range K).reverse.map fun k => p.take k).takeWhile
      fun a => (p.take m).isPrefixOf a) := by
  intro K
  induction K with
  | zero => intro h; omega
  | succ K ih =>
    intro hm
    rw [List.range_succ, List.reverse_append]
    have hpref : ((p.take m).isPrefixOf (p.take K)) = true := by
      rw [ List.isPrefixOf_iff_prefix]
      exact List.take_isPrefix_take.mpr (Or.inl (by omega))
    simp only [List.reverse_cons, List.reverse_nil, List.nil_append, List.singleton_append,
      List.map_cons, List.takeWhile_cons, hpref, if_pos]
    by_cases hmK : m = K
    · subst hmK
      exact List.mem_cons_self _ _
    · exact List.mem_cons_of_mem _ (ih (by omega))

end Saurluhi

namespace Saurluhi

/-! ### Shape of a whole run -/

theorem errFreeC_sorted (cs : FsChildren) :
    errFreeC (sortC (sortTreeChildren cs)) = errFreeC cs := by
  rw [errFreeC_sortC, errFreeC_sortTreeChildren]

theorem allCountedC_sorted (cs : FsChildren) :
    allCountedC (sortC (sortTreeChildren cs)) = allCountedC cs := by
  rw [allCountedC_sortC, allCountedC_sortTreeChildren]

theorem countedC_sorted (cs : FsChildren) :
    countedC (sortC (sortTreeChildren cs)) = countedC cs := by
  rw [countedC_sortC, countedC_sortTreeChildren]

theorem totalCounted_dir (root : EPath) (mt : Int) (me re : Option String)
    (cs : FsChildren) : totalCounted root (.dir mt me re cs) = countedC cs := by
  rw [totalCounted, walk, countedOf_walkChildren]

/-- A run on a tree whose counted size is at most the goal: pass 1 reports
the total, "no need to delete anything" is printed, and the run ends with
no second walk, no deletion, no pruning and no abort. -/
theorem runMain_nothing (dryRun keepParents : Bool) (goal : Nat) (root : EPath)
    (t : FsNode) (hef : errFreeN t = true) (hlt : totalCounted root t < U64)
    (hle : totalCounted root t ≤ goal) :
    runMain dryRun keepParents goal root t
      = ⟨some (totalCounted root t), true, [], [], [], [], false, false,
         totalCounted root t, none⟩ := by
  have hmod : totalCounted root t % U64 = totalCounted root t := Nat.mod_eq_of_lt hlt
  simp only [runMain, pass1_of_errFree root t hef, hmod]
  rw [if_pos hle]

/-- A run on an error-free tree whose counted size exceeds the goal: the
root is necessarily a directory, and the run is pass 1 followed by the
eviction loop over the per-directory-sorted children. -/
theorem runMain_over (dryRun keepParents : Bool) (goal : Nat) (root : EPath)
    (mt : Int) (me re : Option String) (cs : FsChildren)
    (hef : errFreeN (.dir mt me re cs) = true)
    (hfit : totalCounted root (.dir mt me re cs) < U64)
    (hover : goal < totalCounted root (.dir mt me re cs)) :
    runMain dryRun keepParents goal root (.dir mt me re cs)
      = ⟨some (countedC cs), false,
         (evictChildren dryRun keepParents goal root root
            (sortC (sortTreeChildren cs)) (countedC cs)).visited,
         (evictChildren dryRun keepParents goal root root
            (sortC (sortTreeChildren cs)) (countedC cs)).trace,
         (evictChildren dryRun keepParents goal root root
            (sortC (sortTreeChildren cs)) (countedC cs)).deleted,
         (evictChildren dryRun keepParents goal root root
            (sortC (sortTreeChildren cs)) (countedC cs)).pruneCalls,
         (evictChildren dryRun keepParents goal root root
            (sortC (sortTreeChildren cs)) (countedC cs)).underLimit,
         (evictChildren dryRun keepParents goal root root
            (sortC (sortTreeChildren cs)) (countedC cs)).wrapped,
         (evictChildren dryRun keepParents goal root root
            (sortC (sortTreeChildren cs)) (countedC cs)).finalSize,
         (evictChildren dryRun keepParents goal root root
            (sortC (sortTreeChildren cs)) (countedC cs)).fatal⟩ := by
  have hcnt := totalCounted_dir root mt me re cs
  have hmod : totalCounted root (.dir mt me re cs) % U64
      = totalCounted root (.dir mt me re cs) := Nat.mod_eq_of_lt hfit
  have hnle : ¬ totalCounted root (.dir mt me re cs) ≤ goal := by omega
  simp only [errFreeN, Bool.and_eq_true, Option.isNone_iff_eq_none] at hef
  obtain ⟨⟨hme, hre⟩, hcs⟩ := hef
  subst hme hre
  have hfme : findMetaErrC root (sortC (sortTreeChildren cs)) = none :=
    findMetaErrC_of_errFree root _ (by rw [errFreeC_sorted]; exact hcs)
  have hp1 : pass1 root (FsNode.dir mt none none cs)
      = Except.ok (totalCounted root (.dir mt none none cs)) :=
    pass1_of_errFree root _ (by
      simp [errFreeN, hcs])
  simp only [runMain, hp1, hmod]
  rw [if_neg hnle]
  simp only [hfme, hcnt]

end Saurluhi

namespace Saurluhi

theorem sorted_eraseC (cs : FsChildren) :
    sortC (sortTreeChildren (eraseC cs)) = eraseC (sortC (sortTreeChildren cs)) := by
  rw [sortTreeChildren_eraseC, sortC_eraseC]

theorem pass1_op (root : EPath) (t : FsNode) (d : Diag)
    (h : pass1 root t = Except.error d) :
    d.op = "walking" ∨ d.op = "getting metadata of" := by
  match t with
  | .file k sz mt me de => cases h
  | .dir mt me re cs =>
    simp only [pass1] at h
    cases re with
    | some s => cases h; exact Or.inl rfl
    | none => exact sizeChildren_op root root cs d h

/-- A run on a fault-free tree never aborts. -/
theorem runMain_erased_fatal (dryRun keepParents : Bool) (goal : Nat) (root : EPath)
    (t : FsNode) : (runMain dryRun keepParents goal root (eraseN t)).fatal = none := by
  have hp1 : pass1 root (eraseN t) = Except.ok (totalCounted root (eraseN t)) :=
    pass1_of_errFree root (eraseN t) (errFreeN_eraseN t)
  simp only [runMain, hp1]
  split
  · rfl
  · cases t with
    | file k sz mt me de => rfl
    | dir mt me re cs =>
      have he : eraseN (FsNode.dir mt me re cs) = .dir mt none none (eraseC cs) := rfl
      rw [he]
      have hfme : findMetaErrC root (sortC (sortTreeChildren (eraseC cs))) = none :=
        findMetaErrC_of_errFree root _ (by rw [errFreeC_sorted]; exact errFreeC_eraseC cs)
      simp only [hfme]
      exact (evictChildren_deleted dryRun keepParents goal root root _ _
        (by rw [errFreeC_sorted]; exact errFreeC_eraseC cs)).1

end Saurluhi

namespace Saurluhi

/-! ### Concrete trees used by the claim counterexamples and witnesses -/

/-- Root r holding directory a (mtime 10) with a/old (1 byte, mtime 0), and
file new (1 byte, mtime 5). -/
def c1tree : FsNode :=
  dirF 0 (clOf [("a", dirF 10 (clOf [("old", regF 1 0)])), ("new", regF 1 5)])

/-- Root r holding a fifo f (10 bytes, mtime 0) and a regular file g
(10 bytes, mtime 5). -/
def c2tree : FsNode := dirF 0 (clOf [("f", otherF 10 0), ("g", regF 10 5)])

/-- Root r holding a fifo f (11 bytes, mtime 0) and a regular file g
(10 bytes, mtime 5). -/
def c10tree : FsNode := dirF 0 (clOf [("f", otherF 11 0), ("g", regF 10 5)])

/-- Root r holding two regular files a (10 bytes, mtime 0) and b
(10 bytes, mtime 5). -/
def wtree : FsNode := dirF 0 (clOf [("a", regF 10 0), ("b", regF 10 5)])

/-- Root r holding one regular file a of 3 bytes. -/
def c3tree : FsNode := dirF 0 (clOf [("a", regF 3 0)])

/-- Root r holding x (10 bytes, mtime 0) whose unlink fails, and y
(10 bytes, mtime 5). -/
def e9tree : FsNode :=
  dirF 0 (clOf [("x", FsNode.file .regular 10 0 none (some "EACCES")),
                ("y", regF 10 5)])

/-! ### The claims -/

/-- C1: the claim that the eviction pass deletes in globally non-decreasing
modification-time order fails on the code.  On the tree
r/{a(mtime 10)/old(1 byte, mtime 0), new(1 byte, mtime 5)} with goal 0, the
run deletes r/new (mtime 5) before r/a/old (mtime 0): walkdir's sort_by_key
sorts the entries of each directory only, and the directory a (mtime 10)
sorts after the file new (mtime 5), so the whole subtree of a − including
the globally oldest file − is visited last.  The recorded deletion order is
mtimes [5, 0], which is not non-decreasing. -/
theorem C1_per_directory_sort_is_not_global :
    ((runMain false false 0 ["r"] c1tree).deleted.map fun e => (e.path, e.mtime))
      = [(["r", "new"], 5), (["r", "a", "old"], 0)]
    ∧ ¬ List.Pairwise (fun a b => a ≤ b)
        ((runMain false false 0 ["r"] c1tree).deleted.map fun e => e.mtime) := by
  constructor
  · decide
  · decide

/-- C7: every directory remove_empty_ancestors attempts to remove has the
boundary as a path prefix (nothing outside the managed tree is ever
touched); the walk starts at the deleted file's immediate parent; and the
boundary itself satisfies the prefix test, so when every removal succeeds
and the parent chain lies inside the boundary, the boundary directory
itself is removed as well. -/
theorem C7_pruner_stays_inside_boundary (ok : EPath → Bool) (p within : EPath) :
    (∀ pr ∈ removeEmptyAncestors ok p within, within.isPrefixOf pr.1 = true)
    ∧ ((removeEmptyAncestors ok p within).head? = none
        ∨ (removeEmptyAncestors ok p within).head? = some (p.dropLast, ok p.dropLast))
    ∧ ((∀ q, ok q = true) → within.isPrefixOf p.dropLast = true → p ≠ [] →
        (within, true) ∈ removeEmptyAncestors ok p within) := by
  refine ⟨fun pr hpr => (pruneLoop_mem ok within _ pr hpr).2, ?_, ?_⟩
  · cases hp : p with
    | nil => exact Or.inl rfl
    | cons q qs =>
      rw [removeEmptyAncestors, pathAncestors_drop_one]
      have hlen : (q :: qs).length = qs.length + 1 := rfl
      rw [hlen, List.range_succ, List.reverse_append]
      have hdl : (q :: qs).take qs.length = (q :: qs).dropLast := by
        rw [List.dropLast_eq_take]
        rfl
      simp only [List.reverse_cons, List.reverse_nil, List.nil_append,
        List.singleton_append, List.map_cons, pruneLoop]
      rw [hdl]
      by_cases hpre : within.isPrefixOf (q :: qs).dropLast
      · rw [if_pos hpre]
        by_cases hok : ok ((q :: qs).dropLast)
        · rw [if_pos hok, hok]
          exact Or.inr rfl
        · rw [if_neg hok]
          simp only [Bool.not_eq_true] at hok
          rw [hok]
          exact Or.inr rfl
      · rw [if_neg hpre]
        exact Or.inl rfl
  · intro hok hpre hp
    rw [ List.isPrefixOf_iff_prefix] at hpre
    obtain ⟨s, hs⟩ := hpre
    have hlen : within.length ≤ p.dropLast.length := by
      rw [← hs]
      simp
    have hplen : 0 < p.length := List.length_pos.mpr hp
    have hdlen : p.dropLast.length = p.length - 1 := List.length_dropLast p
    have hweq : within = p.take within.length := by
      have h1 : within = (within ++ s).take within.length := by
        rw [List.take_left]
      rw [hs, List.dropLast_eq_take, List.take_take,
        Nat.min_eq_left (by omega : within.length ≤ p.length - 1)] at h1
      exact h1
    have hm : within.length < p.length := by omega
    rw [removeEmptyAncestors, pathAncestors_drop_one,
      pruneLoop_all_ok ok within hok]
    apply List.mem_map_of_mem
    have hmem := take_mem_takeWhile p within.length p.length hm
    rw [← hweq] at hmem
    exact hmem

/-- C7 witness: with a removal primitive that always succeeds, pruning
r/a/x inside boundary r removes the boundary directory r itself. -/
theorem C7_witness :
    ((["r"] : EPath), true) ∈ removeEmptyAncestors (fun _ => true) ["r", "a", "x"] ["r"] :=
  (C7_pruner_stays_inside_boundary (fun _ => true) ["r", "a", "x"] ["r"]).2.2
    (fun _ => rfl) (by decide) (by decide)

/-- C8: the pruning walk attempts each ancestor at most once, and every
attempt except possibly the last succeeds: the first failure of the
non-recursive remove_dir ends the walk immediately (the function returns
normally, so the failure aborts nothing and is not propagated). -/
theorem C8_pruner_failure_ends_walk (ok : EPath → Bool) (p within : EPath) :
    ((removeEmptyAncestors ok p within).map Prod.fst).Nodup
    ∧ ∀ pr ∈ (removeEmptyAncestors ok p within).dropLast, pr.2 = true := by
  constructor
  · have hsub := pruneLoop_fst_sublist ok within ((pathAncestors p).drop 1)
    apply hsub.nodup
    rw [pathAncestors_drop_one]
    apply List.Nodup.map_on
    · intro x hx y hy hxy
      simp only [List.mem_reverse, List.mem_range] at hx hy
      have hlx : (p.take x).length = x := by
        rw [List.length_take]
        omega
      have hly : (p.take y).length = y := by
        rw [List.length_take]
        omega
      rw [← hlx, ← hly, hxy]
    · exact List.nodup_reverse.mpr (List.nodup_range p.length)
  · exact pruneLoop_dropLast ok within _

/-- C8 witness: pruning r/a/x inside r with an always-succeeding primitive:
the non-final attempt on r/a succeeded. -/
theorem C8_witness :
    ((["r", "a"] : EPath), true).2 = true :=
  (C8_pruner_failure_ends_walk (fun _ => true) ["r", "a", "x"] ["r"]).2
    (["r", "a"], true) (by decide)

end Saurluhi

namespace Saurluhi

/-- C3: on a fault-free tree whose aggregate counted size is at most the
goal (a u64 value), the run reports the total, prints "no need to delete
anything", performs no second walk (visits nothing), deletes nothing,
invokes the pruner on nothing, and terminates without a fatal abort. -/
theorem C3_nothing_to_do (dryRun keepParents : Bool) (goal : Nat) (root : EPath)
    (t : FsNode) (hef : errFreeN t = true) (hgoal : goal < U64)
    (hle : totalCounted root t ≤ goal) :
    (runMain dryRun keepParents goal root t).nothingToDo = true
    ∧ (runMain dryRun keepParents goal root t).visited = []
    ∧ (runMain dryRun keepParents goal root t).trace = []
    ∧ (runMain dryRun keepParents goal root t).deleted = []
    ∧ (runMain dryRun keepParents goal root t).pruneCalls = []
    ∧ (runMain dryRun keepParents goal root t).fatal = none
    ∧ (runMain dryRun keepParents goal root t).initialSize
        = some (totalCounted root t) := by
  rw [runMain_nothing dryRun keepParents goal root t hef (lt_of_le_of_lt hle hgoal) hle]
  exact ⟨rfl, rfl, rfl, rfl, rfl, rfl, rfl⟩

/-- C3 witness: one 3-byte file under a 5-byte goal is left alone. -/
theorem C3_witness : (runMain false false 5 ["r"] c3tree).nothingToDo = true :=
  (C3_nothing_to_do false false 5 ["r"] c3tree (by decide) (by decide) (by decide)).1

/-- C5: on a fault-free tree, pass 1 returns exactly the sum of the
on-disk sizes of the entries strictly beneath the root whose file type
satisfies counted_file_type (directories contribute zero by that filter),
and the run reports it reduced to a u64. -/
theorem C5_size_accountant (dryRun keepParents : Bool) (goal : Nat) (root : EPath)
    (t : FsNode) (hef : errFreeN t = true) :
    pass1 root t = Except.ok (totalCounted root t)
    ∧ (runMain dryRun keepParents goal root t).initialSize
        = some (totalCounted root t % U64) := by
  refine ⟨pass1_of_errFree root t hef, ?_⟩
  simp only [runMain, pass1_of_errFree root t hef]
  split
  · rfl
  · cases t with
    | file k sz mt me de => rfl
    | dir mt me re cs =>
      simp only [errFreeN, Bool.and_eq_true, Option.isNone_iff_eq_none] at hef
      obtain ⟨⟨hme, hre⟩, hcs⟩ := hef
      subst hme hre
      cases hf : findMetaErrC root (sortC (sortTreeChildren cs)) with
      | some d => simp only [hf]
      | none => simp only [hf]

/-- C5 witness: the accountant sums the two 10-byte files of wtree. -/
theorem C5_witness : pass1 ["r"] wtree = Except.ok (totalCounted ["r"] wtree) :=
  (C5_size_accountant false false 5 ["r"] wtree (by decide)).1

/-- C6: on a fault-free tree, a dry run deletes nothing and never invokes
remove_empty_ancestors, yet visits the same entries, reports the same
per-file lines and running totals, stops at the same point and ends with
the same final total as the real run. -/
theorem C6_dry_run (keepParents : Bool) (goal : Nat) (root : EPath)
    (t : FsNode) (hef : errFreeN t = true) :
    (runMain true keepParents goal root t).deleted = []
    ∧ (runMain true keepParents goal root t).pruneCalls = []
    ∧ (runMain true keepParents goal root t).fatal = none
    ∧ (runMain true keepParents goal root t).visited
        = (runMain false keepParents goal root t).visited
    ∧ (runMain true keepParents goal root t).trace
        = (runMain false keepParents goal root t).trace
    ∧ (runMain true keepParents goal root t).underLimit
        = (runMain false keepParents goal root t).underLimit
    ∧ (runMain true keepParents goal root t).finalSize
        = (runMain false keepParents goal root t).finalSize := by
  have hp1 := pass1_of_errFree root t hef
  simp only [runMain, hp1]
  by_cases hmod : totalCounted root t % U64 ≤ goal
  · rw [if_pos hmod, if_pos hmod]
    exact ⟨rfl, rfl, rfl, rfl, rfl, rfl, rfl⟩
  · rw [if_neg hmod, if_neg hmod]
    cases t with
    | file k sz mt me de =>
      exact ⟨rfl, rfl, rfl, rfl, rfl, rfl, rfl⟩
    | dir mt me re cs =>
      simp only [errFreeN, Bool.and_eq_true, Option.isNone_iff_eq_none] at hef
      obtain ⟨⟨hme, hre⟩, hcs⟩ := hef
      subst hme hre
      have hefs : errFreeC (sortC (sortTreeChildren cs)) = true := by
        rw [errFreeC_sorted]
        exact hcs
      have hfme : findMetaErrC root (sortC (sortTreeChildren cs)) = none :=
        findMetaErrC_of_errFree root _ hefs
      simp only [hfme]
      obtain ⟨hv, ht, hu, hw, hs, hfx⟩ := evictChildren_dry keepParents goal root root
        (sortC (sortTreeChildren cs)) (totalCounted root (.dir mt none none cs) % U64) hefs
      obtain ⟨hfat, _, _, hdry⟩ := evictChildren_deleted true keepParents goal root root
        (sortC (sortTreeChildren cs)) (totalCounted root (.dir mt none none cs) % U64) hefs
      obtain ⟨hd, hpc⟩ := hdry rfl
      exact ⟨hd, hpc, hfat, hv, ht, hu, hs⟩

/-- C6 witness: a dry run on wtree with goal 5 deletes nothing. -/
theorem C6_witness : (runMain true false 5 ["r"] wtree).deleted = [] :=
  (C6_dry_run false 5 ["r"] wtree (by decide)).1

end Saurluhi


namespace Saurluhi

/-- C2 counterexample: on root r holding a fifo f (10 bytes, mtime 0) and a
regular file g (10 bytes, mtime 5) with goal 5, the counted size is 10 > 5,
the run completes without a fatal error, yet afterwards the remaining
counted size is still 10 > 5 and the eligible file r/g was not deleted: the
eviction loop subtracted the fifo's 10 bytes (never counted in pass 1) and
stopped believing it was under the limit. -/
theorem C2_counterexample :
    totalCounted ["r"] c2tree = 10
    ∧ (runMain false false 5 ["r"] c2tree).fatal = none
    ∧ remainingCountedSize ["r"] c2tree
        ((runMain false false 5 ["r"] c2tree).deleted.map fun e => e.path) = 10
    ∧ (⟨["r", "g"], FileKind.regular, 10, 5⟩ : Entry) ∈ walk ["r"] c2tree
    ∧ counted_file_type FileKind.regular = true
    ∧ (["r", "g"] : EPath)
        ∉ (runMain false false 5 ["r"] c2tree).deleted.map fun e => e.path := by
  refine ⟨?_, ?_, ?_, ?_, ?_, ?_⟩ <;> decide

/-- C2 as amended: on a fault-free tree in which every non-directory entry
has a counted file type (no fifos, sockets or devices), with distinct walk
paths and a counted total that fits in a u64 and exceeds the goal, a
non-dry run always ends with the remaining counted size at most the goal,
or with every counted file deleted. -/
theorem C2_goal_reached (keepParents : Bool) (goal : Nat) (root : EPath) (t : FsNode)
    (hef : errFreeN t = true) (hac : allCountedN t = true)
    (hnd : ((walk root t).map fun e => e.path).Nodup)
    (hfit : totalCounted root t < U64)
    (hover : goal < totalCounted root t) :
    remainingCountedSize root t
        ((runMain false keepParents goal root t).deleted.map fun e => e.path) ≤ goal
    ∨ ∀ e ∈ walk root t, counted_file_type e.kind = true →
        e.path ∈ ((runMain false keepParents goal root t).deleted.map fun e => e.path) := by
  left
  cases t with
  | file k sz mt me de =>
    exfalso
    have h0 : totalCounted root (.file k sz mt me de) = 0 := rfl
    omega
  | dir mt me re cs =>
    rw [runMain_over false keepParents goal root mt me re cs hef hfit hover]
    show remainingCountedSize root (.dir mt me re cs)
      ((evictChildren false keepParents goal root root (sortC (sortTreeChildren cs))
        (countedC cs)).deleted.map fun e => e.path) ≤ goal
    have hefs : errFreeC (sortC (sortTreeChildren cs)) = true := by
      rw [errFreeC_sorted]
      simp only [errFreeN, Bool.and_eq_true] at hef
      exact hef.2
    have hacs : allCountedC (sortC (sortTreeChildren cs)) = true := by
      rw [allCountedC_sorted]
      simpa [allCountedN] using hac
    have htot : totalCounted root (.dir mt me re cs) = countedC cs :=
      totalCounted_dir root mt me re cs
    have hfit2 : countedC cs < U64 := htot ▸ hfit
    obtain ⟨hfat, hwr, hlo, hhi, hul, hnul, hdel⟩ :=
      evictChildren_acc false keepParents goal root root (sortC (sortTreeChildren cs))
        (countedC cs) hefs hacs (le_of_eq (countedC_sorted cs)) hfit2
    have hsumdel := hdel rfl
    have hfin : (evictChildren false keepParents goal root root
        (sortC (sortTreeChildren cs)) (countedC cs)).finalSize ≤ goal := by
      by_cases hu : (evictChildren false keepParents goal root root
          (sortC (sortTreeChildren cs)) (countedC cs)).underLimit = true
      · exact hul hu
      · have h2 := hnul (by simpa using hu)
        rw [h2, countedC_sorted cs]
        omega
    have hsubl := (evictChildren_deleted false keepParents goal root root
      (sortC (sortTreeChildren cs)) (countedC cs) hefs).2.1
    have hwalkperm := sortedWalk_perm root cs
    have hsub : ((evictChildren false keepParents goal root root
        (sortC (sortTreeChildren cs)) (countedC cs)).deleted).Subperm
        (walk root (.dir mt me re cs)) := by
      have h1 : ((evictChildren false keepParents goal root root
          (sortC (sortTreeChildren cs)) (countedC cs)).deleted).Sublist
          (walkChildren root (sortC (sortTreeChildren cs))) :=
        hsubl.trans (List.filter_sublist _)
      exact h1.subperm.trans hwalkperm.subperm
    have hq : ∀ e ∈ (evictChildren false keepParents goal root root
        (sortC (sortTreeChildren cs)) (countedC cs)).deleted,
        counted_file_type e.kind = true := by
      intro e he
      have he2 := hsubl.subset he
      rw [nonDirOf] at he2
      have he3 := List.mem_filter.mp he2
      have hmem2 : e ∈ walkChildren root cs := hwalkperm.subset he3.1
      have hall := walkChildren_allCounted root cs (by simpa [allCountedN] using hac) e hmem2
      cases hall with
      | inl hdir =>
        exfalso
        rw [hdir] at he3
        simp at he3
      | inr hcnt => exact hcnt
    have hrem := remainingCountedSize_eq root (.dir mt me re cs) _ hnd hsub hq
    rw [hrem, htot]
    omega

/-- C2 witness: two 10-byte regular files over a 5-byte goal: the run
reduces the remaining counted size to at most the goal. -/
theorem C2_witness :
    remainingCountedSize ["r"] wtree
        ((runMain false false 5 ["r"] wtree).deleted.map fun e => e.path) ≤ 5
    ∨ ∀ e ∈ walk ["r"] wtree, counted_file_type e.kind = true →
        e.path ∈ ((runMain false false 5 ["r"] wtree).deleted.map fun e => e.path) :=
  C2_goal_reached false 5 ["r"] wtree (by decide) (by decide) (by decide) (by decide)
    (by decide)

end Saurluhi

namespace Saurluhi

/-- C4 counterexample: the eviction loop only skips directories, so the
fifo r/f (file type `other`) is deleted directly and its 10 bytes are
subtracted from the running total (the trace reports 10 − 10 = 0), even
though pass 1 never counted it. -/
theorem C4_counterexample :
    (⟨["r", "f"], FileKind.other, 10, 0⟩ : Entry)
        ∈ (runMain false false 5 ["r"] c2tree).deleted
    ∧ counted_file_type FileKind.other = false
    ∧ (runMain false false 5 ["r"] c2tree).trace = [(["r", "f"], 0)] := by
  refine ⟨?_, ?_, ?_⟩ <;> decide

/-- C4 as amended: every entry the eviction loop deletes is an existing
non-directory entry of the walked tree − directories are never deleted by
the eviction step − but that is the only kind restriction: non-counted
non-directory entries (fifos, sockets, devices) are deleted and subtracted
like files, although pass 1 excludes them from the total. -/
theorem C4_only_nondirs_deleted (dryRun keepParents : Bool) (goal : Nat) (root : EPath)
    (t : FsNode) (hef : errFreeN t = true) :
    ∀ e ∈ (runMain dryRun keepParents goal root t).deleted,
      e ∈ walk root t ∧ e.kind ≠ FileKind.directory := by
  intro e he
  have hp1 := pass1_of_errFree root t hef
  simp only [runMain, hp1] at he
  by_cases hmod : totalCounted root t % U64 ≤ goal
  · rw [if_pos hmod] at he
    cases he
  · rw [if_neg hmod] at he
    cases t with
    | file k sz mt me de => cases he
    | dir mt me re cs =>
      simp only [errFreeN, Bool.and_eq_true, Option.isNone_iff_eq_none] at hef
      obtain ⟨⟨hme, hre⟩, hcs⟩ := hef
      subst hme hre
      have hefs : errFreeC (sortC (sortTreeChildren cs)) = true := by
        rw [errFreeC_sorted]
        exact hcs
      have hfme : findMetaErrC root (sortC (sortTreeChildren cs)) = none :=
        findMetaErrC_of_errFree root _ hefs
      simp only [hfme] at he
      have hsubl := (evictChildren_deleted dryRun keepParents goal root root
        (sortC (sortTreeChildren cs)) (totalCounted root (.dir mt none none cs) % U64)
        hefs).2.1
      have he2 := hsubl.subset he
      rw [nonDirOf] at he2
      have he3 := List.mem_filter.mp he2
      constructor
      · exact (sortedWalk_perm root cs).subset he3.1
      · intro hcontra
        rw [hcontra] at he3
        simp at he3

/-- C4 witness: the deleted fifo of c2tree is indeed a non-directory entry
of the walked tree. -/
theorem C4_witness :
    (⟨["r", "f"], FileKind.other, 10, 0⟩ : Entry) ∈ walk ["r"] c2tree
    ∧ (⟨["r", "f"], FileKind.other, 10, 0⟩ : Entry).kind ≠ FileKind.directory :=
  C4_only_nondirs_deleted false false 5 ["r"] c2tree (by decide)
    ⟨["r", "f"], FileKind.other, 10, 0⟩ (by decide)

/-- C10 counterexample: on root r holding a fifo f (11 bytes, mtime 0) and
a regular file g (10 bytes, mtime 5) with goal 3, pass 1 counts only g's
10 bytes, but the eviction loop processes the fifo first and subtracts its
11 bytes from the running total 10: the u64 subtraction underflows and
wraps to 2^64 − 1 (and then to 2^64 − 11), as the reported trace shows. -/
theorem C10_counterexample :
    totalCounted ["r"] c10tree = 10
    ∧ (runMain false false 3 ["r"] c10tree).wrapped = true
    ∧ (runMain false false 3 ["r"] c10tree).trace
        = [(["r", "f"], U64 - 1), (["r", "g"], U64 - 11)] := by
  refine ⟨?_, ?_, ?_⟩ <;> decide

/-- C10 as amended: on a fault-free tree whose non-directory entries all
have counted file types and whose counted total fits in a u64, the running
total always dominates the size of the entry being processed, so no u64
subtraction in the eviction loop underflows. -/
theorem C10_no_underflow (dryRun keepParents : Bool) (goal : Nat) (root : EPath)
    (t : FsNode) (hef : errFreeN t = true) (hac : allCountedN t = true)
    (hfit : totalCounted root t < U64) :
    (runMain dryRun keepParents goal root t).wrapped = false := by
  by_cases hle : totalCounted root t ≤ goal
  · rw [runMain_nothing dryRun keepParents goal root t hef hfit hle]
  · cases t with
    | file k sz mt me de =>
      exfalso
      have h0 : totalCounted root (.file k sz mt me de) = 0 := rfl
      omega
    | dir mt me re cs =>
      rw [runMain_over dryRun keepParents goal root mt me re cs hef hfit (by omega)]
      show (evictChildren dryRun keepParents goal root root
        (sortC (sortTreeChildren cs)) (countedC cs)).wrapped = false
      have hefs : errFreeC (sortC (sortTreeChildren cs)) = true := by
        rw [errFreeC_sorted]
        simp only [errFreeN, Bool.and_eq_true] at hef
        exact hef.2
      have hacs : allCountedC (sortC (sortTreeChildren cs)) = true := by
        rw [allCountedC_sorted]
        simpa [allCountedN] using hac
      have hfit2 : countedC cs < U64 := totalCounted_dir root mt me re cs ▸ hfit
      exact (evictChildren_acc dryRun keepParents goal root root
        (sortC (sortTreeChildren cs)) (countedC cs) hefs hacs
        (le_of_eq (countedC_sorted cs)) hfit2).2.1

/-- C10 witness: with only regular files the run never wraps. -/
theorem C10_witness : (runMain false false 5 ["r"] wtree).wrapped = false :=
  C10_no_underflow false false 5 ["r"] wtree (by decide) (by decide) (by decide)

end Saurluhi

namespace Saurluhi

/-- C9: whenever a run aborts, the diagnostic names one of the five
operations the program performs (walking / reading a directory, the two
metadata reads, deleting a file) together with a path; what the aborted run
had deleted is a prefix of what the fault-free run on the same snapshot
deletes, so nothing happens past the failing operation and the error is
neither retried nor downgraded; and a run with no failing operation never
aborts. -/
theorem C9_io_errors_abort (dryRun keepParents : Bool) (goal : Nat) (root : EPath)
    (t : FsNode) (d : Diag)
    (h : (runMain dryRun keepParents goal root t).fatal = some d) :
    (d.op = "walking" ∨ d.op = "reading" ∨ d.op = "getting metadata of"
      ∨ d.op = "getting metadata on" ∨ d.op = "deleting")
    ∧ (∃ s, (runMain dryRun keepParents goal root t).deleted ++ s
        = (runMain dryRun keepParents goal root (eraseN t)).deleted)
    ∧ (runMain dryRun keepParents goal root (eraseN t)).fatal = none := by
  refine ⟨?_, ?_, runMain_erased_fatal dryRun keepParents goal root t⟩
  · cases hp : pass1 root t with
    | error d0 =>
      simp only [runMain, hp] at h
      cases h
      cases pass1_op root t d hp with
      | inl h1 => exact Or.inl h1
      | inr h1 => exact Or.inr (Or.inr (Or.inl h1))
    | ok v =>
      simp only [runMain, hp] at h
      by_cases hle : v % U64 ≤ goal
      · rw [if_pos hle] at h
        cases h
      · rw [if_neg hle] at h
        cases t with
        | file k sz mt me de => cases h
        | dir mt me re cs =>
          cases re with
          | some s =>
            simp only [pass1] at hp
            cases hp
          | none =>
            cases hf : findMetaErrC root (sortC (sortTreeChildren cs)) with
            | some d2 =>
              simp only [hf] at h
              cases h
              exact Or.inr (Or.inr (Or.inr (Or.inl (findMetaErrC_op root _ d hf))))
            | none =>
              simp only [hf] at h
              cases evictChildren_op dryRun keepParents goal root root _ _ d h with
              | inl h1 => exact Or.inr (Or.inr (Or.inr (Or.inl h1)))
              | inr h1 =>
                cases h1 with
                | inl h2 => exact Or.inr (Or.inl h2)
                | inr h2 => exact Or.inr (Or.inr (Or.inr (Or.inr h2)))
  · cases hp : pass1 root t with
    | error d0 =>
      have hdel : (runMain dryRun keepParents goal root t).deleted = [] := by
        simp only [runMain, hp]
      rw [hdel]
      exact ⟨(runMain dryRun keepParents goal root (eraseN t)).deleted, rfl⟩
    | ok v =>
      have hpe := pass1_eraseN root t v hp
      by_cases hle : v % U64 ≤ goal
      · have hdel : (runMain dryRun keepParents goal root t).deleted = [] := by
          simp only [runMain, hp]
          rw [if_pos hle]
        rw [hdel]
        exact ⟨(runMain dryRun keepParents goal root (eraseN t)).deleted, rfl⟩
      · cases t with
        | file k sz mt me de =>
          have hdel : (runMain dryRun keepParents goal root
              (.file k sz mt me de)).deleted = [] := by
            simp only [runMain, hp]
            rw [if_neg hle]
          rw [hdel]
          exact ⟨(runMain dryRun keepParents goal root
            (eraseN (.file k sz mt me de))).deleted, rfl⟩
        | dir mt me re cs =>
          cases re with
          | some s =>
            simp only [pass1] at hp
            cases hp
          | none =>
            have herased : eraseN (FsNode.dir mt me none cs)
                = .dir mt none none (eraseC cs) := rfl
            have hfme2 : findMetaErrC root (sortC (sortTreeChildren (eraseC cs)))
                = none := by
              rw [sorted_eraseC]
              exact findMetaErrC_eraseC root _
            rw [herased] at hpe
            have hrhs : (runMain dryRun keepParents goal root
                (eraseN (.dir mt me none cs))).deleted
                = (evictChildren dryRun keepParents goal root root
                    (eraseC (sortC (sortTreeChildren cs))) (v % U64)).deleted := by
              rw [herased]
              simp only [runMain, hpe]
              rw [if_neg hle]
              simp only [hfme2, sorted_eraseC, findMetaErrC_eraseC]
            cases hf : findMetaErrC root (sortC (sortTreeChildren cs)) with
            | some d2 =>
              have hdel : (runMain dryRun keepParents goal root
                  (.dir mt me none cs)).deleted = [] := by
                simp only [runMain, hp]
                rw [if_neg hle]
                simp only [hf]
              rw [hdel]
              exact ⟨(runMain dryRun keepParents goal root
                (eraseN (.dir mt me none cs))).deleted, rfl⟩
            | none =>
              have hlhs : (runMain dryRun keepParents goal root
                  (.dir mt me none cs)).deleted
                  = (evictChildren dryRun keepParents goal root root
                      (sortC (sortTreeChildren cs)) (v % U64)).deleted := by
                simp only [runMain, hp]
                rw [if_neg hle]
                simp only [hf]
              rw [hlhs, hrhs]
              exact (evictChildren_erase dryRun keepParents goal root root
                (sortC (sortTreeChildren cs)) (v % U64)).2

/-- C9 witness: on e9tree, whose file r/x cannot be unlinked, the run with
goal 3 aborts while deleting r/x, and the diagnostic names that
operation. -/
theorem C9_witness :
    (⟨"deleting", ["r", "x"]⟩ : Diag).op = "walking"
    ∨ (⟨"deleting", ["r", "x"]⟩ : Diag).op = "reading"
    ∨ (⟨"deleting", ["r", "x"]⟩ : Diag).op = "getting metadata of"
    ∨ (⟨"deleting", ["r", "x"]⟩ : Diag).op = "getting metadata on"
    ∨ (⟨"deleting", ["r", "x"]⟩ : Diag).op = "deleting" :=
  (C9_io_errors_abort false false 3 ["r"] e9tree ⟨"deleting", ["r", "x"]⟩ (by decide)).1

end Saurluhi
